import Mathlib

/-!
# canarycage: a verification development

A shallow embedding of the pure and decision-making parts of the canarycage
sources (`util.go`, `main.go`) together with theorems about them.

Conventions of the embedding.

* `int64` (and `int`, taken to be 64 bits wide) values are `Int`s; every
  machine operation that may leave the range goes through `wrapInt64`.
* The `float64` values that the arithmetic helpers compute are all dyadic
  (an integer times a power of two) or `+Inf`; they are represented exactly
  by `F64`.  `roundFloat64` is the IEEE-754 round-to-nearest-even of an
  integer to a 53 bit significand, which is what the conversion
  `float64(x)` of an `int64` performs.
* Go leaves the result of converting a floating point value to an integer
  type that cannot represent it implementation-dependent.  The embedding
  takes that result from a parameter `impl`, so theorems quantified over
  `impl` hold on every implementation.
* Health metrics are `float64` in the source.  The availability formula is
  embedded on `Float64`, the IEEE-754 doubles with round-to-nearest-even
  arithmetic, signed zeros, infinities and NaN; a finite double is held as
  a whole number of units of `2 ^ -1074`.  The comparisons of the canary
  decision, which do not round, are embedded over exact rationals.
* Loops without a static bound take a `fuel` argument and return `none`
  when it runs out.
-/

namespace Cage

/-! ## Machine arithmetic -/

/-- Two's complement wrap-around of a 64 bit signed integer. -/
def wrapInt64 (z : Int) : Int := (z + 2 ^ 63) % 2 ^ 64 - 2 ^ 63

/-- Number of low bits that have to be dropped from `n` to fit a 53 bit
significand (zero when `n < 2 ^ 53`).  The first argument bounds the number
of halvings; `n` itself always suffices. -/
def excessBits : Nat → Nat → Nat
  | 0, _ => 0
  | fuel + 1, n => if n < 2 ^ 53 then 0 else excessBits fuel (n / 2) + 1

/-- IEEE-754 round-to-nearest, ties-to-even, of a natural number to a 53 bit
significand. -/
def roundNat53 (n : Nat) : Nat :=
  let e := excessBits n n
  let q := n / 2 ^ e
  let r := n % 2 ^ e
  if 2 * r < 2 ^ e then q * 2 ^ e
  else if 2 ^ e < 2 * r then (q + 1) * 2 ^ e
  else if q % 2 = 0 then q * 2 ^ e
  else (q + 1) * 2 ^ e

/-- The value of `float64(z)` for an integer `z`: the nearest double, which
is again an integer. -/
def roundFloat64 (z : Int) : Int :=
  if z < 0 then -((roundNat53 z.natAbs : Nat) : Int) else ((roundNat53 z.natAbs : Nat) : Int)

/-- The `float64` values reached by the helpers: `fin m e` is the finite
value `m * 2 ^ e`, `posInf` is `+Inf`. -/
inductive F64 where
  | fin (m : Int) (e : Int)
  | posInf

/-- Comparison `x <= y` of two `F64` values. -/
def F64.le : F64 → F64 → Bool
  | F64.fin m1 e1, F64.fin m2 e2 =>
    decide (m1 * 2 ^ (e1 - min e1 e2).toNat ≤ m2 * 2 ^ (e2 - min e1 e2).toNat)
  | _, F64.posInf => true
  | F64.posInf, F64.fin _ _ => false

/-- The call `math.Pow(2, y)` for an integer-valued double `y`: exact for
`-1074 <= y < 1024`, `+Inf` above (overflow) and `0` below (underflow). -/
def mathPow2 (y : Int) : F64 :=
  if 1024 ≤ y then F64.posInf
  else if y < -1074 then F64.fin 0 0
  else F64.fin 1 y

/-- The call `math.Min(x, y)`. -/
def mathMin (x y : F64) : F64 := if F64.le x y then x else y

/-- The conversion `int64(f)`: truncation toward zero when the result is
representable, otherwise whatever the implementation yields (`impl f`,
brought into range). -/
def toInt64 (impl : F64 → Int) (f : F64) : Int :=
  match f with
  | F64.fin m e =>
    let t := if 0 ≤ e then m * 2 ^ e.toNat else Int.tdiv m (2 ^ (-e).toNat)
    if -(2 : Int) ^ 63 ≤ t ∧ t < 2 ^ 63 then t else wrapInt64 (impl f)
  | F64.posInf => wrapInt64 (impl f)

/-- An implementation whose out-of-range conversions saturate at the largest
`int64` (the behaviour of arm64 for values that are too large). -/
def saturating : F64 → Int := fun _ => 2 ^ 63 - 1

/-- An implementation whose out-of-range conversions yield the smallest
`int64` (the behaviour of amd64). -/
def indefinite : F64 → Int := fun _ => -(2 ^ 63)

/-! ## util.go -/

/-- `EstimateRollOutCount` loop: `for ; int64(math.Pow(2, float64(i)))-1 <
originalTaskCount; i++ {}` followed by `return i`. -/
def estimateLoop (impl : F64 → Int) (originalTaskCount : Int) : Nat → Int → Option Int
  | 0, _ => none
  | fuel + 1, i =>
    if wrapInt64 (toInt64 impl (mathPow2 (roundFloat64 i)) - 1) < originalTaskCount then
      estimateLoop impl originalTaskCount fuel (wrapInt64 (i + 1))
    else some i

/-- `EstimateRollOutCount` of util.go. -/
def EstimateRollOutCount (impl : F64 → Int) (fuel : Nat) (originalTaskCount : Int) :
    Option Int :=
  estimateLoop impl originalTaskCount fuel 0

/-- `EnsureReplaceCount` of util.go. -/
def EnsureReplaceCount (impl : F64 → Int)
    (totalReplacedCount totalRollOutCount originalCount : Int) : Int :=
  toInt64 impl (mathMin (mathPow2 (roundFloat64 totalRollOutCount))
    (F64.fin (roundFloat64 (wrapInt64 (originalCount - totalReplacedCount))) 0))

/-- The running total of replaced tasks when batch `i` replaces
`EnsureReplaceCount(replaced, i, original)` tasks: `replaced_0 = 0` and
`replaced_(i+1) = replaced_i + EnsureReplaceCount(replaced_i, i, original)`. -/
def replacedAfter (impl : F64 → Int) (original : Int) : Nat → Int
  | 0 => 0
  | i + 1 =>
    replacedAfter impl original i
      + EnsureReplaceCount impl (replacedAfter impl original i) i original

/-! ## main.go: health sample and canary decision -/

/-- `ServiceHealth` of main.go. -/
structure ServiceHealth where
  availability : ℚ
  responseTime : ℚ
deriving DecidableEq

/-- A `float64` value.  Every finite double is a whole multiple of `2 ^ -1074`:
`finite sign w` is the value `(-1) ^ sign * w * 2 ^ -1074` (a zero keeps its
sign), `inf sign` is an infinity and `nan` is a NaN. -/
inductive Float64 where
  | finite (sign : Bool) (w : Nat)
  | inf (sign : Bool)
  | nan
deriving DecidableEq

/-- Round-to-nearest, ties-to-even, of the quotient `n / d` (`d > 0`) to a
natural number with a 53 bit significand. -/
def roundRatio53 (n d : Nat) : Nat :=
  let e := excessBits (n / d) (n / d)
  let q := n / (d * 2 ^ e)
  let r := n % (d * 2 ^ e)
  if 2 * r < d * 2 ^ e then q * 2 ^ e
  else if d * 2 ^ e < 2 * r then (q + 1) * 2 ^ e
  else if q % 2 = 0 then q * 2 ^ e
  else (q + 1) * 2 ^ e

/-- The double for a rounded magnitude in units of `2 ^ -1074`: magnitudes
from `2 ^ 1024` (`2 ^ 2098` units) on overflow to the infinity. -/
def Float64.ofUnits (sign : Bool) (w : Nat) : Float64 :=
  if 2 ^ 2098 ≤ w then Float64.inf sign else Float64.finite sign w

/-- The constant `0`. -/
def Float64.zero : Float64 := Float64.finite false 0

/-- The constant `1`. -/
def Float64.one : Float64 := Float64.finite false (2 ^ 1074)

/-- The conversion `float64(n)` of a natural number. -/
def Float64.ofNat (n : Nat) : Float64 := Float64.ofUnits false (roundNat53 (n * 2 ^ 1074))

/-- Unary minus. -/
def Float64.neg : Float64 → Float64
  | Float64.finite sign w => Float64.finite (!sign) w
  | Float64.inf sign => Float64.inf (!sign)
  | Float64.nan => Float64.nan

/-- The sum `x + y`, rounded to nearest. -/
def Float64.add : Float64 → Float64 → Float64
  | Float64.nan, _ => Float64.nan
  | _, Float64.nan => Float64.nan
  | Float64.inf s1, Float64.inf s2 => if s1 = s2 then Float64.inf s1 else Float64.nan
  | Float64.inf s1, Float64.finite _ _ => Float64.inf s1
  | Float64.finite _ _, Float64.inf s2 => Float64.inf s2
  | Float64.finite s1 w1, Float64.finite s2 w2 =>
    if s1 = s2 then Float64.ofUnits s1 (roundNat53 (w1 + w2))
    else if w1 = w2 then Float64.finite false 0
    else if w2 < w1 then Float64.ofUnits s1 (roundNat53 (w1 - w2))
    else Float64.ofUnits s2 (roundNat53 (w2 - w1))

/-- The difference `x - y`, rounded to nearest. -/
def Float64.sub (x y : Float64) : Float64 := Float64.add x (Float64.neg y)

/-- The quotient `x / y`, rounded to nearest. -/
def Float64.div : Float64 → Float64 → Float64
  | Float64.nan, _ => Float64.nan
  | _, Float64.nan => Float64.nan
  | Float64.inf _, Float64.inf _ => Float64.nan
  | Float64.inf s1, Float64.finite s2 _ => Float64.inf (xor s1 s2)
  | Float64.finite s1 _, Float64.inf s2 => Float64.finite (xor s1 s2) 0
  | Float64.finite s1 w1, Float64.finite s2 w2 =>
    if w2 = 0 then
      if w1 = 0 then Float64.nan else Float64.inf (xor s1 s2)
    else Float64.ofUnits (xor s1 s2) (roundRatio53 (w1 * 2 ^ 1074) w2)

/-- The comparison `x == 0`. -/
def Float64.isZero : Float64 → Bool
  | Float64.finite _ w => decide (w = 0)
  | _ => false

/-- The comparison `x < y`. -/
def Float64.lt : Float64 → Float64 → Bool
  | Float64.nan, _ => false
  | _, Float64.nan => false
  | Float64.inf s1, Float64.inf s2 => s1 && !s2
  | Float64.inf s1, Float64.finite _ _ => s1
  | Float64.finite _ _, Float64.inf s2 => !s2
  | Float64.finite s1 w1, Float64.finite s2 w2 =>
    decide ((if s1 then -(w1 : Int) else (w1 : Int)) < (if s2 then -(w2 : Int) else (w2 : Int)))

/-- The comparison `x == y`. -/
def Float64.eq : Float64 → Float64 → Bool
  | Float64.nan, _ => false
  | _, Float64.nan => false
  | Float64.inf s1, Float64.inf s2 => decide (s1 = s2)
  | Float64.inf _, Float64.finite _ _ => false
  | Float64.finite _ _, Float64.inf _ => false
  | Float64.finite s1 w1, Float64.finite s2 w2 =>
    decide ((if s1 then -(w1 : Int) else (w1 : Int)) = (if s2 then -(w2 : Int) else (w2 : Int)))

/-- The comparison `x <= y`. -/
def Float64.le (x y : Float64) : Bool := Float64.lt x y || Float64.eq x y

/-- The sign bit (`math.Signbit`). -/
def Float64.signbit : Float64 → Bool
  | Float64.finite sign _ => sign
  | Float64.inf sign => sign
  | Float64.nan => false

/-- The call `math.Min(x, y)` with its special cases. -/
def Float64.min (x y : Float64) : Float64 :=
  if x = Float64.inf true ∨ y = Float64.inf true then Float64.inf true
  else if x = Float64.nan ∨ y = Float64.nan then Float64.nan
  else if Float64.isZero x ∧ Float64.eq x y then (if Float64.signbit x then x else y)
  else if Float64.lt x y then x
  else y

/-- The call `math.Max(x, y)` with its special cases. -/
def Float64.max (x y : Float64) : Float64 :=
  if x = Float64.inf false ∨ y = Float64.inf false then Float64.inf false
  else if x = Float64.nan ∨ y = Float64.nan then Float64.nan
  else if Float64.isZero x ∧ Float64.eq x y then (if Float64.signbit x then y else x)
  else if Float64.lt y x then x
  else y

/-- The largest finite double, `(2 ^ 53 - 1) * 2 ^ 971`, in units of
`2 ^ -1074`. -/
def Float64.maxFinite : Nat := (2 ^ 53 - 1) * 2 ^ 2045

/-- The rational value of a finite double. -/
def Float64.toRat : Float64 → Option ℚ
  | Float64.finite sign w => some ((if sign then -(w : ℚ) else (w : ℚ)) / 2 ^ 1074)
  | _ => none

/-- The `ServiceHealth` value that `AccumulatePeriodicServiceHealth` builds,
with its two `float64` fields. -/
structure ServiceHealthSample where
  availability : Float64
  responseTime : Float64
deriving DecidableEq

/-- The final step of `AccumulatePeriodicServiceHealth`, after all four
metric fetches succeeded (main.go, lines 171-180). -/
def AccumulatePeriodicServiceHealth (requestCnt elb5xxCnt target5xxCnt responseTime : Float64) :
    Except String ServiceHealthSample :=
  if Float64.isZero requestCnt ∧ Float64.isZero elb5xxCnt then
    Except.error "failed to get precise metric data"
  else
    let avl := Float64.div (Float64.sub requestCnt target5xxCnt)
      (Float64.add requestCnt elb5xxCnt)
    let avl := Float64.max Float64.zero (Float64.min Float64.one avl)
    Except.ok { availability := avl, responseTime := responseTime }

/-- The branch the driver takes after the terminal check. -/
inductive CanaryBranch where
  | rollOut
  | rollback
deriving DecidableEq

/-- The canary test of `StartGradualRollOut` (main.go, line 282): the first
branch calls `RollOut`, the other one `Rollback`. -/
def canaryBranch (health : ServiceHealth) (availabilityThreshold responseTimeThreshold : ℚ) :
    CanaryBranch :=
  if health.availability ≤ availabilityThreshold ∧ responseTimeThreshold ≤ health.responseTime then
    CanaryBranch.rollOut
  else
    CanaryBranch.rollback

/-- The `estimatedRollOutCount` closure of `StartGradualRollOut` (main.go,
lines 223-233): `for i := 0.0; ; i += 1.0 { add := int(math.Pow(2, i)); if
ret+add > originalRunningTaskCount { break }; ret += add }`, then `return
ret`. -/
def estimatedLoop (impl : F64 → Int) (originalRunningTaskCount : Int) :
    Nat → Int → Int → Option Int
  | 0, _, _ => none
  | fuel + 1, i, ret =>
    let add := toInt64 impl (mathPow2 i)
    if originalRunningTaskCount < wrapInt64 (ret + add) then some ret
    else estimatedLoop impl originalRunningTaskCount fuel (roundFloat64 (i + 1))
      (wrapInt64 (ret + add))

/-- The value `StartGradualRollOut` binds to `estimatedRollOutCount`. -/
def estimatedRollOutCount (impl : F64 → Int) (fuel : Nat) (originalRunningTaskCount : Int) :
    Option Int :=
  estimatedLoop impl originalRunningTaskCount fuel 0 0

/-! ## main.go: RollOut and Rollback -/

/-- The fields of `ecs.Service` that `RollOut` and `Rollback` read. -/
structure Service where
  serviceName : String
  taskDefinition : String
  runningCount : Int
deriving DecidableEq

/-- The fields of `ecs.StartTaskInput` that the callers fill in. -/
structure StartTaskInput where
  cluster : String
  taskDefinition : String
  group : String
deriving DecidableEq

/-- The two counters `RollOut` receives by pointer. -/
structure RollOutCounters where
  replacedCount : Int
  rollOutCount : Int
deriving DecidableEq

/-- Joins the replacement goroutines of one batch: the first error wins,
otherwise every pair that completed has executed `*replacedCount += 1` (the
increments are taken one after the other). -/
def replaceTasks (replaceTask : String → Except String Unit) :
    List String → Int → Except String Int
  | [], replacedCount => Except.ok replacedCount
  | task :: tasks, replacedCount =>
    match replaceTask task with
    | Except.error err => Except.error err
    | Except.ok _ => replaceTasks replaceTask tasks (wrapInt64 (replacedCount + 1))

/-- `RollOut` of main.go.  `listTasks` is the answer of `ListTasks` for the
current service and `replaceTask` the outcome of the stop/start pair run
for a task.  The loop `for i := 0; i < numToBeReplaced && len(tasks) > 0;
i++` takes tasks from the head of the list. -/
def RollOut (impl : F64 → Int) (listTasks : Except String (List String))
    (replaceTask : String → Except String Unit) (counters : RollOutCounters) :
    Except String RollOutCounters :=
  match listTasks with
  | Except.error err => Except.error err
  | Except.ok tasks =>
    let numToBeReplaced := toInt64 impl (mathPow2 (roundFloat64 counters.rollOutCount))
    match replaceTasks replaceTask (tasks.take numToBeReplaced.toNat) counters.replacedCount with
    | Except.error err => Except.error err
    | Except.ok replacedCount =>
      Except.ok { replacedCount := replacedCount,
                  rollOutCount := wrapInt64 (counters.rollOutCount + 1) }

/-- The value of `rollbackCount` in `Rollback` (main.go, lines 393-397). -/
def rollbackCount (currentService : Service) (originalTaskCount : Int) : Int :=
  let currentTaskCount := currentService.runningCount
  let rollbackCount := wrapInt64 (originalTaskCount - currentTaskCount)
  if rollbackCount < 0 then currentTaskCount else rollbackCount

/-- The `StartTask` requests `Rollback` issues when every goroutine it
spawns gets to run: one per iteration of `for i := 0; i < rollbackCount;
i++`, all with the same input (main.go, lines 404 and 424-431). -/
def Rollback (cluster : String) (currentService : Service) (nextServiceName : String)
    (originalTaskCount : Int) : List StartTaskInput :=
  let currentServiceGroup := "service:" ++ nextServiceName
  List.replicate (rollbackCount currentService originalTaskCount).toNat
    { cluster := cluster,
      taskDefinition := currentService.taskDefinition,
      group := currentServiceGroup }

/-! ## Regular expressions

Go's `regexp` package returns the leftmost match and, among those, the one a
backtracking search finds first.  The patterns of the sources are embedded
as backtracking matchers in continuation-passing style: a matcher receives
the continuation that matches the rest of the pattern on the remaining
input. -/

/-- Greedy `.+`: one or more characters other than a line feed, longest
first. -/
def dotPlusGreedy {α : Type} (k : List Char → Option α) : List Char → Option α
  | [] => none
  | c :: rest =>
    if c = '\n' then none
    else (dotPlusGreedy k rest).orElse fun _ => k rest

/-- Lazy `.+?`: one or more characters other than a line feed, shortest
first. -/
def dotPlusLazy {α : Type} (k : List Char → Option α) : List Char → Option α
  | [] => none
  | c :: rest =>
    if c = '\n' then none
    else (k rest).orElse fun _ => dotPlusLazy k rest

/-- A literal string. -/
def literal {α : Type} (lit : List Char) (k : List Char → Option α) (s : List Char) :
    Option α :=
  if lit.isPrefixOf s then k (s.drop lit.length) else none

/-- The text consumed between input `s` and its later remainder `rest`. -/
def consumed (s rest : List Char) : List Char := s.take (s.length - rest.length)

/-- The pattern `^.+(lit.+?)$` tried at one start position; `atStart` says
whether that position is the beginning of the text (where `^` matches).  The
result is the pair of the whole match and of group 1. -/
def suffixPattern (lit : List Char) (atStart : Bool) (s : List Char) :
    Option (List Char × List Char) :=
  if atStart then
    dotPlusGreedy (fun s1 =>
      literal lit (dotPlusLazy fun s2 =>
        if s2 = [] then some (consumed s s2, consumed s1 s2) else none) s1) s
  else none

/-- Leftmost search: the pattern is tried at every start position in turn. -/
def searchFrom {α : Type} (pattern : Bool → List Char → Option α) :
    Bool → List Char → Option α
  | atStart, [] => pattern atStart []
  | atStart, c :: rest =>
    (pattern atStart (c :: rest)).orElse fun _ => searchFrom pattern false rest

/-- The call `regexp.MustCompile(pat).FindStringSubmatch(arn)` for `pat` of
the shape `^.+(lit.+?)$`: the whole match and group 1, or `none` (nil). -/
def FindStringSubmatch (lit : String) (arn : String) : Option (String × String) :=
  (searchFrom (suffixPattern lit.toList) true arn.toList).map
    fun m => (String.mk m.1, String.mk m.2)

/-- `ExtractAlbId` of util.go (and main.go). -/
def ExtractAlbId (arn : String) : Except String String :=
  match FindStringSubmatch "app/" arn with
  | none => Except.error ("could not find alb id in '" ++ arn ++ "'")
  | some group => Except.ok group.2

/-- `ExtractTargetGroupId` of util.go (and main.go). -/
def ExtractTargetGroupId (arn : String) : Except String String :=
  match FindStringSubmatch "targetgroup/" arn with
  | none => Except.error ("could not find target group id in '" ++ arn ++ "'")
  | some group => Except.ok group.2

/-! ## env.go -/

/-- `Envars` of env.go; the two payloads are kept as opaque texts. -/
structure Envars where
  Region : String
  Cluster : String
  Service : String
  CanaryInstanceArn : String
  TaskDefinitionArn : String
  taskDefinition : Option String
  serviceDefinition : Option String
deriving DecidableEq

/-- `kDefaultRegion` of env.go. -/
def kDefaultRegion : String := "us-west-2"

/-- `ClusterKey` of env.go. -/
def ClusterKey : String := "CAGE_CLUSTER"

/-- `ServiceKey` of env.go. -/
def ServiceKey : String := "CAGE_SERVICE"

/-- `EnsureEnvars` of env.go: the record behind `dest` after the call and
the returned error (`none` for nil). -/
def EnsureEnvars (dest : Envars) : Envars × Option String :=
  if dest.Cluster = "" then
    (dest, some ("--cluster [" ++ ClusterKey ++ "] is required"))
  else if dest.Service = "" then
    (dest, some ("--service [" ++ ServiceKey ++ "] is required"))
  else if dest.taskDefinition = none then
    (dest, some "--nextTaskDefinitionArn or deploy context must be provided")
  else if dest.Region = "" then
    ({ dest with Region := kDefaultRegion }, none)
  else
    (dest, none)

/-- `MergeEnvars` of env.go: the records behind `dest` and `src` after the
call. -/
def MergeEnvars (dest src : Envars) : Envars × Envars :=
  let dest := if src.Region ≠ "" then { dest with Region := src.Region } else dest
  let dest := if src.Cluster ≠ "" then { dest with Cluster := src.Cluster } else dest
  let dest := if src.Service ≠ "" then { dest with Service := src.Service } else dest
  let dest := if src.CanaryInstanceArn ≠ "" then
    { dest with CanaryInstanceArn := src.CanaryInstanceArn } else dest
  let dest := if src.TaskDefinitionArn ≠ "" then
    { dest with TaskDefinitionArn := src.TaskDefinitionArn } else dest
  (dest, src)

/-! ## util.go: ReadFileAndApplyEnvars -/

/-- The pattern `\$\x7b(.+?)\x7d` tried at one start position: the whole match and
group 1. -/
def placeholderPattern (s : List Char) : Option (List Char × List Char) :=
  literal "$\x7b".toList (fun s1 =>
    dotPlusLazy (fun s2 =>
      literal "\x7d".toList (fun s3 => some (consumed s s3, consumed s1 s2)) s2) s1) s

/-- Successive non-overlapping leftmost matches; the first argument counts
the characters of the previous match still to be skipped. -/
def findAllFrom (pattern : List Char → Option (List Char × List Char)) :
    Nat → List Char → List (List Char × List Char)
  | _, [] => []
  | skip + 1, _ :: rest => findAllFrom pattern skip rest
  | 0, c :: rest =>
    match pattern (c :: rest) with
    | some m => m :: findAllFrom pattern (m.1.length - 1) rest
    | none => findAllFrom pattern 0 rest

/-- The call `reg.FindAllStringSubmatch(str, -1)` for the pattern of
`ReadFileAndApplyEnvars`. -/
def FindAllStringSubmatch (str : List Char) : List (List Char × List Char) :=
  findAllFrom placeholderPattern 0 str

/-- Left-to-right replacement of the non-overlapping occurrences of a
non-empty `old`; the first argument counts the characters of the occurrence
just replaced that are still to be skipped. -/
def replaceFrom (old new : List Char) : Nat → List Char → List Char
  | _, [] => []
  | skip + 1, _ :: rest => replaceFrom old new skip rest
  | 0, c :: rest =>
    if old.isPrefixOf (c :: rest) then new ++ replaceFrom old new (old.length - 1) rest
    else c :: replaceFrom old new 0 rest

/-- The call `strings.Replace(s, old, new, -1)`. -/
def stringsReplace (s old new : List Char) : List Char :=
  if old = [] then new ++ s.foldr (fun c acc => c :: (new ++ acc)) []
  else replaceFrom old new 0 s

/-- `ReadFileAndApplyEnvars` of util.go.  `file` is the answer of
`ioutil.ReadFile(path)` and `lookupEnv` the process environment
(`os.LookupEnv`). -/
def ReadFileAndApplyEnvars (file : Except String String) (lookupEnv : String → Option String) :
    Except String String :=
  match file with
  | Except.error err => Except.error err
  | Except.ok d =>
    let submatches := FindAllStringSubmatch d.toList
    Except.ok (String.mk (submatches.foldl (fun str m =>
      match lookupEnv (String.mk m.2) with
      | some envar => stringsReplace str m.1 envar.toList
      | none => stringsReplace str m.1 []) d.toList))

/-! ## main.go: the loop of StartGradualRollOut -/

/-- The ways the loop of `StartGradualRollOut` ends. -/
inductive LoopResult where
  | completed
  | budgetExceeded
  | rolledBack
  | failed
  | outOfFuel
deriving DecidableEq

/-- The driver's counters together with what `DescribeServices` and
`ListTasks` report: the running tasks of the current service and the running
count of the next service. -/
structure LoopState where
  counters : RollOutCounters
  currentTasks : List String
  nextRunningCount : Int
deriving DecidableEq

/-- The value of `numToBeReplaced` in `RollOut` (main.go, line 324). -/
def numToBeReplaced (impl : F64 → Int) (rollOutCount : Int) : Int :=
  toInt64 impl (mathPow2 (roundFloat64 rollOutCount))

/-- The loop of `StartGradualRollOut` (main.go, lines 236-301) against a
control plane on which every stop/start pair succeeds: a stopped task leaves
the current service and a started task runs in the next one.  `canary it` is
the branch the canary test takes in iteration `it`. -/
def rollOutLoop (impl : F64 → Int) (canary : Nat → CanaryBranch)
    (estimatedRollOutCount originalRunningTaskCount : Int) :
    Nat → Nat → LoopState → LoopResult × LoopState
  | 0, _, state => (LoopResult.outOfFuel, state)
  | fuel + 1, it, state =>
    if estimatedRollOutCount < state.counters.rollOutCount then
      (LoopResult.budgetExceeded, state)
    else if (state.currentTasks.length : Int) = 0
        ∧ originalRunningTaskCount ≤ state.nextRunningCount then
      (LoopResult.completed, state)
    else
      match canary it with
      | CanaryBranch.rollback => (LoopResult.rolledBack, state)
      | CanaryBranch.rollOut =>
        match RollOut impl (Except.ok state.currentTasks) (fun _ => Except.ok ())
            state.counters with
        | Except.error _ => (LoopResult.failed, state)
        | Except.ok counters =>
          let n := (numToBeReplaced impl state.counters.rollOutCount).toNat
          rollOutLoop impl canary estimatedRollOutCount originalRunningTaskCount fuel (it + 1)
            { counters := counters,
              currentTasks := state.currentTasks.drop n,
              nextRunningCount :=
                state.nextRunningCount + ((state.currentTasks.take n).length : Int) }

/-- `StartGradualRollOut` of main.go from the snapshot on (lines 219-302):
the counters start at zero, the estimate is computed by the closure, and the
canary test compares each health sample with the thresholds. -/
def StartGradualRollOut (impl : F64 → Int) (fuel : Nat)
    (availabilityThreshold responseTimeThreshold : ℚ) (health : Nat → ServiceHealth)
    (originalRunningTaskCount : Int) (currentTasks : List String) (nextRunningCount : Int) :
    LoopResult × LoopState :=
  match estimatedRollOutCount impl fuel originalRunningTaskCount with
  | none =>
    (LoopResult.outOfFuel,
      { counters := { replacedCount := 0, rollOutCount := 0 },
        currentTasks := currentTasks, nextRunningCount := nextRunningCount })
  | some estimated =>
    rollOutLoop impl
      (fun it => canaryBranch (health it) availabilityThreshold responseTimeThreshold)
      estimated originalRunningTaskCount fuel 0
      { counters := { replacedCount := 0, rollOutCount := 0 },
        currentTasks := currentTasks, nextRunningCount := nextRunningCount }

/-! ## Templates (the statements about ReadFileAndApplyEnvars) -/

/-- A piece of a template: literal text, or a placeholder with its name. -/
inductive Segment where
  | text (t : String)
  | placeholder (name : String)
deriving DecidableEq

/-- The text of a segment in the file: the literal text, or the name between
`$\x7b` and `\x7d`. -/
def Segment.source : Segment → List Char
  | Segment.text t => t.toList
  | Segment.placeholder name => "$\x7b".toList ++ (name.toList ++ "\x7d".toList)

/-- The file content made of the segments. -/
def templateSource : List Segment → List Char
  | [] => []
  | seg :: rest => seg.source ++ templateSource rest

/-- The value substituted for a name: the value of the variable, or the empty
string if it is not defined. -/
def envValue (lookupEnv : String → Option String) (name : String) : List Char :=
  match lookupEnv name with
  | some envar => envar.toList
  | none => []

/-- One simultaneous pass: every placeholder is replaced by the value of its
name, all other text is kept. -/
def substituteAll (lookupEnv : String → Option String) : List Segment → List Char
  | [] => []
  | Segment.text t :: rest => t.toList ++ substituteAll lookupEnv rest
  | Segment.placeholder name :: rest =>
    envValue lookupEnv name ++ substituteAll lookupEnv rest

/-- Every `$` of the content begins a placeholder: texts contain no `$`, and
names are non-empty and contain no `$`, no `\x7d` and no line feed. -/
def Segment.wellFormed : Segment → Prop
  | Segment.text t => '$' ∉ t.toList
  | Segment.placeholder name =>
    name ≠ "" ∧ '$' ∉ name.toList ∧ '\x7d' ∉ name.toList ∧ '\n' ∉ name.toList

/-- The characters `$`, `\x7b`, `\x7d` occur only in placeholders whose names are
non-empty runs of letters, digits and underscores. -/
def Segment.plain : Segment → Prop
  | Segment.text t => '$' ∉ t.toList ∧ '\x7b' ∉ t.toList ∧ '\x7d' ∉ t.toList
  | Segment.placeholder name =>
    name ≠ "" ∧ ∀ c ∈ name.toList, c.isAlphanum = true ∨ c = '_'

/-- The text after the placeholders of the names in `done` have been
replaced. -/
def partialSubstitute (lookupEnv : String → Option String) (done : List String) :
    List Segment → List Char
  | [] => []
  | Segment.text t :: rest => t.toList ++ partialSubstitute lookupEnv done rest
  | Segment.placeholder name :: rest =>
    (if name ∈ done then envValue lookupEnv name
     else (Segment.placeholder name).source) ++ partialSubstitute lookupEnv done rest

/-- The names of the placeholders, in order. -/
def placeholderNames : List Segment → List String
  | [] => []
  | Segment.text _ :: rest => placeholderNames rest
  | Segment.placeholder name :: rest => name :: placeholderNames rest

/-! ## Lemmas on the machine arithmetic -/

theorem excessBits_of_lt (fuel n : Nat) (h : n < 2 ^ 53) : excessBits fuel n = 0 := by
  cases fuel with
  | zero => rfl
  | succ f => rw [excessBits, if_pos h]

theorem roundNat53_of_lt (n : Nat) (h : n < 2 ^ 53) : roundNat53 n = n := by
  simp [roundNat53, excessBits_of_lt n n h, Nat.mod_one]

theorem roundNat53_of_le (n : Nat) (h : n ≤ 2 ^ 53) : roundNat53 n = n := by
  rcases Nat.lt_or_ge n (2 ^ 53) with h1 | h1
  · exact roundNat53_of_lt n h1
  · have : n = 2 ^ 53 := Nat.le_antisymm h h1
    subst this
    decide

theorem excessBits_floor (fuel n : Nat) (h : 2 ^ 53 ≤ n) :
    2 ^ 52 ≤ n / 2 ^ excessBits fuel n * 2 ^ excessBits fuel n := by
  induction fuel generalizing n with
  | zero => simp [excessBits]; omega
  | succ f ih =>
    have hn : ¬ n < 2 ^ 53 := by omega
    rw [excessBits, if_neg hn]
    rcases Nat.lt_or_ge (n / 2) (2 ^ 53) with h1 | h1
    · rw [excessBits_of_lt f (n / 2) h1]
      simp
      omega
    · have h2 := ih (n / 2) h1
      have h3 : n / 2 ^ (excessBits f (n / 2) + 1) = n / 2 / 2 ^ excessBits f (n / 2) := by
        rw [pow_succ, Nat.mul_comm, Nat.div_div_eq_div_mul]
      rw [h3]
      have h4 : n / 2 / 2 ^ excessBits f (n / 2) * 2 ^ (excessBits f (n / 2) + 1) =
          n / 2 / 2 ^ excessBits f (n / 2) * 2 ^ excessBits f (n / 2) * 2 := by
        rw [pow_succ, Nat.mul_assoc]
      omega

theorem roundNat53_ge (n : Nat) (h : 2 ^ 53 ≤ n) : 2 ^ 52 ≤ roundNat53 n := by
  have h1 := excessBits_floor n n h
  unfold roundNat53
  simp only
  have h2 : n / 2 ^ excessBits n n * 2 ^ excessBits n n ≤
      (n / 2 ^ excessBits n n + 1) * 2 ^ excessBits n n :=
    Nat.mul_le_mul_right _ (Nat.le_succ _)
  split_ifs <;> omega

theorem roundFloat64_of_le (z : Int) (h0 : 0 ≤ z) (h : z ≤ 2 ^ 53) : roundFloat64 z = z := by
  have h1 : ¬ z < 0 := by omega
  rw [roundFloat64, if_neg h1, roundNat53_of_le _ (by omega)]
  omega

theorem roundFloat64_ge (z : Int) (h : 2 ^ 53 ≤ z) : 2 ^ 52 ≤ roundFloat64 z := by
  have h1 : ¬ z < 0 := by omega
  rw [roundFloat64, if_neg h1]
  have := roundNat53_ge z.natAbs (by omega)
  omega

/-- The number of dropped bits is at most `j` once `n / 2 ^ j` fits 53 bits. -/
theorem excessBits_le (fuel n j : Nat) (h : n / 2 ^ j < 2 ^ 53) : excessBits fuel n ≤ j := by
  induction fuel generalizing n j with
  | zero => simp [excessBits]
  | succ f ih =>
    rw [excessBits]
    split_ifs with h1
    · exact Nat.zero_le _
    · cases j with
      | zero =>
        rw [pow_zero, Nat.div_one] at h
        exact absurd h h1
      | succ j' =>
        have h2 : n / 2 / 2 ^ j' < 2 ^ 53 := by
          rw [Nat.div_div_eq_div_mul, ← pow_succ']
          exact h
        have h3 := ih (n / 2) j' h2
        omega

/-- A number with a significand below `2 ^ 53` is its own rounding. -/
theorem roundNat53_mul_pow (m j : Nat) (hm : m < 2 ^ 53) :
    roundNat53 (m * 2 ^ j) = m * 2 ^ j := by
  have he : excessBits (m * 2 ^ j) (m * 2 ^ j) ≤ j :=
    excessBits_le _ _ _ (by rw [Nat.mul_div_cancel _ (pow_pos (by decide) j)]; exact hm)
  have hdvd : 2 ^ excessBits (m * 2 ^ j) (m * 2 ^ j) ∣ m * 2 ^ j :=
    Dvd.dvd.mul_left (pow_dvd_pow 2 he) m
  have hpos : 0 < 2 ^ excessBits (m * 2 ^ j) (m * 2 ^ j) := pow_pos (by decide) _
  unfold roundNat53
  simp only
  rw [Nat.mod_eq_zero_of_dvd hdvd, Nat.div_mul_cancel hdvd, if_pos (by omega)]

/-- Rounding does not cross a number with a significand below `2 ^ 53`. -/
theorem roundNat53_le_of_le (n m j : Nat) (hm : m < 2 ^ 53) (h : n ≤ m * 2 ^ j) :
    roundNat53 n ≤ m * 2 ^ j := by
  have hdiv : n / 2 ^ j < 2 ^ 53 := by
    have : n / 2 ^ j ≤ m := by
      rw [Nat.div_le_iff_le_mul_add_pred (pow_pos (by decide) j)]
      have := pow_pos (show 0 < 2 by decide) j
      rw [Nat.mul_comm]
      omega
    omega
  have he : excessBits n n ≤ j := excessBits_le _ _ _ hdiv
  obtain ⟨d, hd⟩ := Nat.exists_eq_add_of_le he
  have hM : m * 2 ^ j = m * 2 ^ d * 2 ^ excessBits n n := by
    rw [hd, pow_add, Nat.mul_assoc, Nat.mul_comm (2 ^ d)]
  rw [hM] at h ⊢
  have hpos : 0 < 2 ^ excessBits n n := pow_pos (by decide) _
  have hdm := Nat.div_add_mod n (2 ^ excessBits n n)
  have hlt := Nat.mod_lt n hpos
  have hq : n / 2 ^ excessBits n n * 2 ^ excessBits n n ≤ n := Nat.div_mul_le_self _ _
  have hup : 0 < n % 2 ^ excessBits n n →
      (n / 2 ^ excessBits n n + 1) * 2 ^ excessBits n n ≤ m * 2 ^ d * 2 ^ excessBits n n := by
    intro hr
    apply Nat.mul_le_mul_right
    by_contra hc
    have hc1 : m * 2 ^ d ≤ n / 2 ^ excessBits n n := by omega
    have := Nat.mul_le_mul_right (2 ^ excessBits n n) hc1
    rw [Nat.mul_comm] at hdm
    omega
  unfold roundNat53
  simp only
  split_ifs with c1 c2 c3
  · omega
  · exact hup (by omega)
  · omega
  · exact hup (by omega)

/-- A positive number rounds to a positive number. -/
theorem roundNat53_pos (n : Nat) (h : 0 < n) : 0 < roundNat53 n := by
  rcases Nat.lt_or_ge n (2 ^ 53) with h1 | h1
  · rw [roundNat53_of_lt n h1]
    exact h
  · have := roundNat53_ge n h1
    omega

theorem wrapInt64_of_range (z : Int) (h0 : -(2 ^ 63) ≤ z) (h1 : z < 2 ^ 63) :
    wrapInt64 z = z := by
  unfold wrapInt64
  omega

theorem mathPow2_of_small (k : Int) (h0 : 0 ≤ k) (h1 : k < 1024) :
    mathPow2 (roundFloat64 k) = F64.fin 1 k := by
  rw [roundFloat64_of_le k h0 (by omega)]
  have h2 : ¬ (1024 : Int) ≤ k := by omega
  have h3 : ¬ k < -1074 := by omega
  rw [mathPow2, if_neg h2, if_neg h3]

theorem mathPow2_of_large (k : Int) (h1 : 1024 ≤ k) :
    mathPow2 (roundFloat64 k) = F64.posInf := by
  have h2 : (1024 : Int) ≤ roundFloat64 k := by
    rcases le_or_lt k (2 ^ 53) with h | h
    · rw [roundFloat64_of_le k (by omega) h]; exact h1
    · have := roundFloat64_ge k (by omega)
      omega
  rw [mathPow2, if_pos h2]

theorem toInt64_fin_zero (impl : F64 → Int) (m : Int) (h0 : -(2 ^ 63) ≤ m) (h1 : m < 2 ^ 63) :
    toInt64 impl (F64.fin m 0) = m := by
  simp only [toInt64]
  simp
  intro h
  omega

theorem toInt64_pow (impl : F64 → Int) (k : Int) (h0 : 0 ≤ k) (h1 : k < 63) :
    toInt64 impl (F64.fin 1 k) = 2 ^ k.toNat := by
  have hk : k.toNat < 63 := by omega
  have hp : (2 : Int) ^ k.toNat < 2 ^ 63 := pow_lt_pow_right₀ (by norm_num) hk
  have hp0 : (0 : Int) < 2 ^ k.toNat := by positivity
  simp only [toInt64, if_pos h0, one_mul]
  rw [if_pos]
  constructor
  · omega
  · exact hp

/-! ## The canary decision (C1) -/

/-- The first branch of the canary test is taken exactly when the measured
availability is at most its threshold and the measured response time is at
least its threshold. -/
theorem canaryBranch_rollOut_iff (health : ServiceHealth) (a r : ℚ) :
    canaryBranch health a r = CanaryBranch.rollOut
      ↔ health.availability ≤ a ∧ r ≤ health.responseTime := by
  unfold canaryBranch
  split_ifs with h
  · simp [h]
  · simp [h]

/-- C1 (the code at a failing input): for the healthy sample availability 1,
response time 0.1 and the thresholds 0.9 and 1.0, which the claim counts as
a pass, the canary test of `StartGradualRollOut` takes the branch that calls
`Rollback`. -/
theorem canaryBranch_healthy_sample_rolls_back :
    canaryBranch { availability := 1, responseTime := 1 / 10 } (9 / 10) 1
      = CanaryBranch.rollback := by
  have h : ¬ ((1 : ℚ) ≤ 9 / 10 ∧ (1 : ℚ) ≤ 1 / 10) := by norm_num
  exact if_neg h

/-! ## EnsureReplaceCount (C2) -/

theorem ensureReplaceCount_min (impl : F64 → Int) (replaced rollOutCount original : Int)
    (hk : 0 ≤ rollOutCount) (hro : replaced ≤ original) (hd : original - replaced ≤ 2 ^ 53) :
    EnsureReplaceCount impl replaced rollOutCount original
      = min (2 ^ rollOutCount.toNat) (original - replaced) := by
  have hd0 : 0 ≤ original - replaced := by omega
  unfold EnsureReplaceCount
  rw [wrapInt64_of_range _ (by omega) (by omega), roundFloat64_of_le _ hd0 hd]
  rcases lt_or_le rollOutCount 1024 with h | h
  · rw [mathPow2_of_small _ hk h]
    have hmin : min rollOutCount 0 = 0 := min_eq_right hk
    by_cases hle : (2 : Int) ^ rollOutCount.toNat ≤ original - replaced
    · have h63 : rollOutCount < 63 := by
        by_contra hc
        have h5 : (2 : Int) ^ 63 ≤ 2 ^ rollOutCount.toNat :=
          pow_le_pow_right₀ (by norm_num) (by omega)
        omega
      have : mathMin (F64.fin 1 rollOutCount) (F64.fin (original - replaced) 0)
          = F64.fin 1 rollOutCount := by
        simp [mathMin, F64.le, hmin, hle]
      rw [this, toInt64_pow impl _ hk h63, min_eq_left hle]
    · have : mathMin (F64.fin 1 rollOutCount) (F64.fin (original - replaced) 0)
          = F64.fin (original - replaced) 0 := by
        simp [mathMin, F64.le, hmin, hle]
      rw [this, toInt64_fin_zero impl _ (by omega) (by omega)]
      rw [min_eq_right (by omega)]
  · rw [mathPow2_of_large _ h]
    have : mathMin F64.posInf (F64.fin (original - replaced) 0)
        = F64.fin (original - replaced) 0 := by
      simp [mathMin, F64.le]
    rw [this, toInt64_fin_zero impl _ (by omega) (by omega)]
    have h5 : (2 : Int) ^ 54 ≤ 2 ^ rollOutCount.toNat :=
      pow_le_pow_right₀ (by norm_num) (by omega)
    rw [min_eq_right (by omega)]

/-- The cases of `TestEnsureReplaceCount`. -/
theorem EnsureReplaceCount_tests (impl : F64 → Int) :
    EnsureReplaceCount impl 0 0 4 = 1 ∧ EnsureReplaceCount impl 1 1 6 = 2
      ∧ EnsureReplaceCount impl 6 2 15 = 4 ∧ EnsureReplaceCount impl 14 3 15 = 1 :=
  ⟨rfl, rfl, rfl, rfl⟩

/-- C2 (amended): for every implementation, every `rollOutCount >= 0` and
every `replaced <= original` with `original - replaced <= 2 ^ 53`,
`EnsureReplaceCount(replaced, rollOutCount, original)` equals
`min(2 ^ rollOutCount, original - replaced)`; the result is `>= 0` and
`replaced + result <= original`. -/
theorem EnsureReplaceCount_eq_min (impl : F64 → Int) (replaced rollOutCount original : Int)
    (hk : 0 ≤ rollOutCount) (hro : replaced ≤ original) (hd : original - replaced ≤ 2 ^ 53) :
    EnsureReplaceCount impl replaced rollOutCount original
        = min (2 ^ rollOutCount.toNat) (original - replaced)
      ∧ 0 ≤ EnsureReplaceCount impl replaced rollOutCount original
      ∧ replaced + EnsureReplaceCount impl replaced rollOutCount original ≤ original := by
  have hmain := ensureReplaceCount_min impl replaced rollOutCount original hk hro hd
  have hp0 : (0 : Int) < 2 ^ rollOutCount.toNat := by positivity
  refine ⟨hmain, ?_, ?_⟩
  · rw [hmain]; exact le_min hp0.le (by omega)
  · rw [hmain]
    have := min_le_right ((2 : Int) ^ rollOutCount.toNat) (original - replaced)
    omega

/-- C2 (witness): the amended statement at `EnsureReplaceCount(14, 3, 15)`. -/
theorem EnsureReplaceCount_eq_min_witness :
    ((0 : Int) ≤ 3 ∧ (14 : Int) ≤ 15 ∧ (15 : Int) - 14 ≤ 2 ^ 53) ∧
    (EnsureReplaceCount saturating 14 3 15 = min (2 ^ (3 : Int).toNat) (15 - 14)
      ∧ 0 ≤ EnsureReplaceCount saturating 14 3 15
      ∧ 14 + EnsureReplaceCount saturating 14 3 15 ≤ 15) :=
  ⟨by decide, EnsureReplaceCount_eq_min saturating 14 3 15 (by decide) (by decide) (by decide)⟩

/-- C2 (counterexample): with `replaced = 0`, `rollOutCount = 60` and
`original = 2 ^ 53 + 3` the conversion `float64(original - replaced)` rounds
up, so `EnsureReplaceCount` returns `2 ^ 53 + 4`: this is not
`min(2 ^ 60, original - replaced)` and `replaced + result` exceeds
`original`. -/
theorem EnsureReplaceCount_rounds_up :
    EnsureReplaceCount saturating 0 60 (2 ^ 53 + 3) = 2 ^ 53 + 4
      ∧ EnsureReplaceCount saturating 0 60 (2 ^ 53 + 3)
          ≠ min (2 ^ (60 : Int).toNat) (2 ^ 53 + 3 - 0)
      ∧ ¬ (0 + EnsureReplaceCount saturating 0 60 (2 ^ 53 + 3) ≤ 2 ^ 53 + 3) := by
  decide

/-! ## EstimateRollOutCount (C3) -/

theorem estimateLoop_continue (impl : F64 → Int) (n : Int) (fuel i : Nat) (hi : i < 63)
    (h : (2 : Int) ^ i - 1 < n) :
    estimateLoop impl n (fuel + 1) i = estimateLoop impl n fuel ((i + 1 : Nat) : Int) := by
  have hp : (2 : Int) ^ i < 2 ^ 63 := pow_lt_pow_right₀ (by norm_num) hi
  have hp0 : (0 : Int) < 2 ^ i := by positivity
  rw [estimateLoop, mathPow2_of_small _ (by omega) (by omega),
    toInt64_pow impl _ (by omega) (by omega), Int.toNat_ofNat,
    wrapInt64_of_range _ (by omega) (by omega), if_pos h,
    wrapInt64_of_range _ (by omega) (by omega)]
  rfl

theorem estimateLoop_stop (impl : F64 → Int) (n : Int) (fuel i : Nat) (hi : i < 63)
    (h : n ≤ (2 : Int) ^ i - 1) :
    estimateLoop impl n (fuel + 1) i = some (i : Int) := by
  have hp : (2 : Int) ^ i < 2 ^ 63 := pow_lt_pow_right₀ (by norm_num) hi
  have hp0 : (0 : Int) < 2 ^ i := by positivity
  rw [estimateLoop, mathPow2_of_small _ (by omega) (by omega),
    toInt64_pow impl _ (by omega) (by omega), Int.toNat_ofNat,
    wrapInt64_of_range _ (by omega) (by omega), if_neg (by omega)]

theorem estimateLoop_climbs (impl : F64 → Int) (n : Int) (k : Nat) (hk : k ≤ 63)
    (hstop : ∀ fuel, estimateLoop impl n (fuel + 1) k = some (k : Int))
    (hbelow : ∀ j : Nat, j < k → (2 : Int) ^ j - 1 < n)
    (d : Nat) : ∀ (i fuel : Nat), i + d = k → d < fuel →
      estimateLoop impl n fuel i = some (k : Int) := by
  induction d with
  | zero =>
    intro i fuel hik hf
    obtain ⟨f, rfl⟩ : ∃ f, fuel = f + 1 := ⟨fuel - 1, by omega⟩
    have : i = k := by omega
    subst this
    exact hstop f
  | succ d ih =>
    intro i fuel hik hf
    obtain ⟨f, rfl⟩ : ∃ f, fuel = f + 1 := ⟨fuel - 1, by omega⟩
    rw [estimateLoop_continue impl n f i (by omega) (hbelow i (by omega))]
    exact ih (i + 1) f (by omega) (by omega)

theorem estimateLoop_reaches (impl : F64 → Int) (n : Int) (k : Nat) (hk : k < 63)
    (hstop : n ≤ (2 : Int) ^ k - 1) (hbelow : ∀ j : Nat, j < k → (2 : Int) ^ j - 1 < n)
    (d : Nat) : ∀ (i fuel : Nat), i + d = k → d < fuel →
      estimateLoop impl n fuel i = some (k : Int) :=
  estimateLoop_climbs impl n k (by omega)
    (fun fuel => estimateLoop_stop impl n fuel k hk hstop) hbelow d

theorem estimate_exists (impl : F64 → Int) (n : Int) (h0 : 0 ≤ n) (h1 : n < 2 ^ 62) :
    ∃ k : Nat, k ≤ 62 ∧ (∀ fuel, k < fuel → EstimateRollOutCount impl fuel n = some (k : Int))
      ∧ n ≤ (2 : Int) ^ k - 1 ∧ ∀ j : Nat, j < k → (2 : Int) ^ j - 1 < n := by
  have hex : ∃ k : Nat, n ≤ (2 : Int) ^ k - 1 := ⟨62, by omega⟩
  classical
  have h62 : n ≤ (2 : Int) ^ 62 - 1 := by omega
  have hle : Nat.find hex ≤ 62 := Nat.find_min' hex h62
  refine ⟨Nat.find hex, hle, ?_, Nat.find_spec hex, ?_⟩
  · intro fuel hf
    have hk : Nat.find hex < 63 := by omega
    exact estimateLoop_reaches impl n (Nat.find hex) hk (Nat.find_spec hex)
      (fun j hj => not_le.mp (Nat.find_min hex hj)) (Nat.find hex) 0 fuel (by omega) hf
  · intro j hj
    exact not_le.mp (Nat.find_min hex hj)

/-- The cases of `TestEstimateRollOutCount`. -/
theorem EstimateRollOutCount_tests (impl : F64 → Int) :
    EstimateRollOutCount impl 2 1 = some 1 ∧ EstimateRollOutCount impl 3 2 = some 2
      ∧ EstimateRollOutCount impl 5 10 = some 4 :=
  ⟨rfl, rfl, rfl⟩

/-- C3 (amended): for every implementation and every `0 <= n < 2 ^ 62`,
`EstimateRollOutCount(n)` terminates (any fuel above `k` suffices) and
returns the unique `k >= 0` with `2 ^ k - 1 >= n` and (`k = 0` or
`n > 2 ^ (k - 1) - 1`). -/
theorem EstimateRollOutCount_spec (impl : F64 → Int) (n : Int) (h0 : 0 ≤ n) (h1 : n < 2 ^ 62) :
    ∃ k : Nat, (∀ fuel, k < fuel → EstimateRollOutCount impl fuel n = some (k : Int))
      ∧ n ≤ (2 : Int) ^ k - 1 ∧ (k = 0 ∨ (2 : Int) ^ (k - 1) - 1 < n)
      ∧ ∀ j : Nat, n ≤ (2 : Int) ^ j - 1 → (j = 0 ∨ (2 : Int) ^ (j - 1) - 1 < n) → j = k := by
  obtain ⟨k, -, hrun, hstop, hbelow⟩ := estimate_exists impl n h0 h1
  refine ⟨k, hrun, hstop, ?_, ?_⟩
  · rcases Nat.eq_zero_or_pos k with hk | hk
    · exact Or.inl hk
    · exact Or.inr (hbelow (k - 1) (by omega))
  · intro j hj1 hj2
    have hkj : k ≤ j := by
      by_contra hc
      have := hbelow j (by omega)
      omega
    by_contra hne
    have hlt : k < j := lt_of_le_of_ne hkj (Ne.symm hne)
    rcases hj2 with hj2 | hj2
    · omega
    · have hmono : (2 : Int) ^ k ≤ 2 ^ (j - 1) := pow_le_pow_right₀ (by norm_num) (by omega)
      omega

/-- C3 (witness): the amended statement at `n = 10`. -/
theorem EstimateRollOutCount_spec_witness :
    ((0 : Int) ≤ 10 ∧ (10 : Int) < 2 ^ 62) ∧
    ∃ k : Nat, (∀ fuel, k < fuel → EstimateRollOutCount saturating fuel 10 = some (k : Int))
      ∧ (10 : Int) ≤ (2 : Int) ^ k - 1 ∧ (k = 0 ∨ (2 : Int) ^ (k - 1) - 1 < 10)
      ∧ ∀ j : Nat, (10 : Int) ≤ (2 : Int) ^ j - 1 → (j = 0 ∨ (2 : Int) ^ (j - 1) - 1 < 10) →
          j = k :=
  ⟨by decide, EstimateRollOutCount_spec saturating 10 (by decide) (by decide)⟩

theorem toInt64_saturating_range (f : F64) :
    -(2 ^ 63) ≤ toInt64 saturating f ∧ toInt64 saturating f < 2 ^ 63 := by
  have hs : wrapInt64 (saturating f) = 2 ^ 63 - 1 := by
    show wrapInt64 (2 ^ 63 - 1) = 2 ^ 63 - 1
    decide
  cases f with
  | posInf => simp only [toInt64, hs]; omega
  | fin m e =>
    simp only [toInt64, hs]
    split_ifs with h <;> omega

theorem toInt64_saturating_mathPow2 (y : Int) :
    0 ≤ toInt64 saturating (mathPow2 y) ∧ toInt64 saturating (mathPow2 y) < 2 ^ 63 := by
  refine ⟨?_, (toInt64_saturating_range _).2⟩
  have hs : ∀ f, wrapInt64 (saturating f) = 2 ^ 63 - 1 := by
    intro f
    show wrapInt64 (2 ^ 63 - 1) = 2 ^ 63 - 1
    decide
  unfold mathPow2
  split_ifs with h1 h2
  · simp only [toInt64, hs]; omega
  · simp only [toInt64, hs]
    split_ifs <;> omega
  · simp only [toInt64, hs]
    have ht : 0 ≤ (if 0 ≤ y then (1 : Int) * 2 ^ y.toNat else Int.tdiv 1 (2 ^ (-y).toNat)) := by
      split_ifs
      · positivity
      · exact Int.tdiv_nonneg (by norm_num) (by positivity)
    split_ifs <;> omega

theorem estimateLoop_saturating_maxInt64 (fuel : Nat) :
    ∀ i : Int, estimateLoop saturating (2 ^ 63 - 1) fuel i = none := by
  induction fuel with
  | zero => intro i; rfl
  | succ f ih =>
    intro i
    have h := toInt64_saturating_mathPow2 (roundFloat64 i)
    rw [estimateLoop, wrapInt64_of_range _ (by omega) (by omega), if_pos (by omega)]
    exact ih _

/-- C3 (counterexample): where out-of-range conversions saturate,
`EstimateRollOutCount(2 ^ 63 - 1)` never returns: `int64(math.Pow(2, 63))`
is `2 ^ 63 - 1`, so the loop condition `int64(...) - 1 < 2 ^ 63 - 1` holds at
`i = 63` and at every later `i`. -/
theorem EstimateRollOutCount_saturating_diverges :
    ¬ ∃ (fuel : Nat) (k : Int), EstimateRollOutCount saturating fuel (2 ^ 63 - 1) = some k := by
  rintro ⟨fuel, k, h⟩
  rw [EstimateRollOutCount, estimateLoop_saturating_maxInt64] at h
  exact Option.noConfusion h

theorem estimateLoop_indefinite_stop (n : Int) (h1 : n < 2 ^ 63) (fuel : Nat) :
    estimateLoop indefinite n (fuel + 1) ((63 : Nat) : Int) = some ((63 : Nat) : Int) := by
  have h : wrapInt64 (toInt64 indefinite (mathPow2 (roundFloat64 ((63 : Nat) : Int))) - 1)
      = 2 ^ 63 - 1 := by decide
  rw [estimateLoop, h, if_neg (by omega)]

/-- Where out-of-range conversions yield the smallest `int64` (amd64), the
characterisation of `EstimateRollOutCount` extends to every `0 <= n < 2 ^
63`: `int64(math.Pow(2, 63)) - 1` wraps around to `2 ^ 63 - 1`. -/
theorem EstimateRollOutCount_indefinite (n : Int) (h0 : 0 ≤ n) (h1 : n < 2 ^ 63) :
    ∃ k : Nat, (∀ fuel, k < fuel → EstimateRollOutCount indefinite fuel n = some (k : Int))
      ∧ n ≤ (2 : Int) ^ k - 1 ∧ ∀ j : Nat, j < k → (2 : Int) ^ j - 1 < n := by
  rcases lt_or_le n (2 ^ 62) with h | h
  · obtain ⟨k, -, hrun, hstop, hbelow⟩ := estimate_exists indefinite n h0 h
    exact ⟨k, hrun, hstop, hbelow⟩
  · have hbelow : ∀ j : Nat, j < 63 → (2 : Int) ^ j - 1 < n := by
      intro j hj
      have : (2 : Int) ^ j ≤ 2 ^ 62 := pow_le_pow_right₀ (by norm_num) (by omega)
      omega
    refine ⟨63, ?_, by omega, hbelow⟩
    intro fuel hf
    exact estimateLoop_climbs indefinite n 63 (le_refl _) (estimateLoop_indefinite_stop n h1)
      hbelow 63 0 fuel rfl hf

/-! ## A rollout that always passes (C4) -/

theorem replacedAfter_eq (impl : F64 → Int) (n : Int) (h0 : 0 ≤ n) (h1 : n ≤ 2 ^ 53) (i : Nat) :
    replacedAfter impl n i = min ((2 : Int) ^ i - 1) n := by
  induction i with
  | zero => simp [replacedAfter, h0]
  | succ i ih =>
    have hp0 : (0 : Int) < 2 ^ i := by positivity
    have hr0 : 0 ≤ replacedAfter impl n i := by rw [ih]; exact le_min (by omega) h0
    have hrn : replacedAfter impl n i ≤ n := by rw [ih]; exact min_le_right _ _
    have hb := (ensureReplaceCount_min impl (replacedAfter impl n i) i n
      (by omega) hrn (by omega))
    rw [Int.toNat_ofNat] at hb
    rw [replacedAfter, hb, ih, pow_succ]
    rcases le_or_lt ((2 : Int) ^ i - 1) n with h | h
    · rw [min_eq_left h]
      rcases le_or_lt ((2 : Int) ^ i) (n - (2 ^ i - 1)) with h2 | h2
      · rw [min_eq_left h2, min_eq_left (by omega)]; omega
      · rw [min_eq_right h2.le, min_eq_right (by omega)]; omega
    · rw [min_eq_right h.le, min_eq_right (by omega), min_eq_right (by omega)]; omega

/-- C4 (amended): for every implementation and every `0 <= original <=
2 ^ 53`, with `k = EstimateRollOutCount(original)` the running total
`replaced_k` equals `original`, and every batch `i < k` replaces at least
one task, namely `min(2 ^ i, original - (2 ^ i - 1))` tasks. -/
theorem rollOut_replaces_all (impl : F64 → Int) (original : Int) (h0 : 0 ≤ original)
    (h1 : original ≤ 2 ^ 53) :
    ∃ k : Nat, (∀ fuel, k < fuel → EstimateRollOutCount impl fuel original = some (k : Int))
      ∧ replacedAfter impl original k = original
      ∧ ∀ i : Nat, i < k →
          1 ≤ EnsureReplaceCount impl (replacedAfter impl original i) i original
          ∧ EnsureReplaceCount impl (replacedAfter impl original i) i original
              = min ((2 : Int) ^ i) (original - (2 ^ i - 1)) := by
  obtain ⟨k, -, hrun, hstop, hbelow⟩ := estimate_exists impl original h0 (by omega)
  refine ⟨k, hrun, ?_, ?_⟩
  · rw [replacedAfter_eq impl original h0 h1, min_eq_right hstop]
  · intro i hi
    have hlt := hbelow i hi
    have hp0 : (0 : Int) < 2 ^ i := by positivity
    have hri : replacedAfter impl original i = 2 ^ i - 1 := by
      rw [replacedAfter_eq impl original h0 h1, min_eq_left hlt.le]
    have hb := (ensureReplaceCount_min impl (replacedAfter impl original i) i original
      (by omega) (by omega) (by omega))
    rw [Int.toNat_ofNat] at hb
    rw [hb, hri]
    exact ⟨le_min (by omega) (by omega), rfl⟩

/-- C4 (witness): the amended statement at `original = 4`. -/
theorem rollOut_replaces_all_witness :
    ((0 : Int) ≤ 4 ∧ (4 : Int) ≤ 2 ^ 53) ∧
    ∃ k : Nat, (∀ fuel, k < fuel → EstimateRollOutCount saturating fuel 4 = some (k : Int))
      ∧ replacedAfter saturating 4 k = 4
      ∧ ∀ i : Nat, i < k →
          1 ≤ EnsureReplaceCount saturating (replacedAfter saturating 4 i) i 4
          ∧ EnsureReplaceCount saturating (replacedAfter saturating 4 i) i 4
              = min ((2 : Int) ^ i) (4 - (2 ^ i - 1)) :=
  ⟨by decide, rollOut_replaces_all saturating 4 (by decide) (by decide)⟩

/-- The happy path of four tasks: three batches, of sizes 1, 2 and 1. -/
theorem rollOut_of_four_tasks :
    EstimateRollOutCount saturating 4 4 = some 3
      ∧ EnsureReplaceCount saturating (replacedAfter saturating 4 0) 0 4 = 1
      ∧ EnsureReplaceCount saturating (replacedAfter saturating 4 1) 1 4 = 2
      ∧ EnsureReplaceCount saturating (replacedAfter saturating 4 2) 2 4 = 1
      ∧ replacedAfter saturating 4 3 = 4 := by
  decide

set_option maxRecDepth 100000 in
/-- C4 (counterexample): for `original = 2 ^ 54 + 2 ^ 53 + 2` the estimate is
`k = 55`, but the last batch is computed from `float64(2 ^ 53 + 3)`, which
rounds up, and `replaced_55` is `original + 1`. -/
theorem replacedAfter_overshoots :
    EstimateRollOutCount saturating 56 (2 ^ 54 + 2 ^ 53 + 2) = some 55
      ∧ replacedAfter saturating (2 ^ 54 + 2 ^ 53 + 2) 55 = 2 ^ 54 + 2 ^ 53 + 2 + 1
      ∧ replacedAfter saturating (2 ^ 54 + 2 ^ 53 + 2) 55 ≠ 2 ^ 54 + 2 ^ 53 + 2 := by
  decide

/-! ## The driver's estimate (C5) -/

/-- C5 (the code at failing inputs): on every implementation the closure of
`StartGradualRollOut` yields `estimatedRollOutCount = 1` for two running
tasks and `7` for ten, the sum of the batch sizes that fit, whereas
`EstimateRollOutCount` returns the number of batches, `2` and `4`. -/
theorem estimatedRollOutCount_is_sum_of_batches (impl : F64 → Int) :
    estimatedRollOutCount impl 2 2 = some 1 ∧ EstimateRollOutCount impl 3 2 = some 2
      ∧ estimatedRollOutCount impl 4 10 = some 7 ∧ EstimateRollOutCount impl 5 10 = some 4 :=
  ⟨rfl, rfl, rfl, rfl⟩

/-! ## Rollback (C6, C9) -/

/-- The requests of `Rollback`: `rollbackCount` copies of one `StartTask`
input, with the task definition of the current service and the group built
from `nextServiceName`. -/
theorem Rollback_requests (cluster : String) (currentService : Service)
    (nextServiceName : String) (originalTaskCount : Int) :
    Rollback cluster currentService nextServiceName originalTaskCount
      = List.replicate (rollbackCount currentService originalTaskCount).toNat
          { cluster := cluster, taskDefinition := currentService.taskDefinition,
            group := "service:" ++ nextServiceName } := rfl

/-- C6 (counterexample): with an original count of 2 and a
current service running 5 tasks, `Rollback` starts 5 tasks, whereas
`max(0, original - current.runningCount)` is 0. -/
theorem Rollback_starts_tasks_when_over_original :
    (Rollback "cluster" { serviceName := "current", taskDefinition := "td", runningCount := 5 }
        "next" 2).length = 5 ∧ max 0 ((2 : Int) - 5) = 0 := by
  decide

/-- C6 (amended): for non-negative `int` counts, `Rollback` starts
`original - current.runningCount` tasks when the current service runs at most
the original count, and `current.runningCount` tasks when it runs more than
the original count; it starts no task exactly when the current service runs
exactly the original count. -/
theorem Rollback_count (cluster : String) (currentService : Service)
    (nextServiceName : String) (originalTaskCount : Int)
    (h0 : 0 ≤ originalTaskCount) (h1 : originalTaskCount < 2 ^ 63)
    (h2 : 0 ≤ currentService.runningCount) (h3 : currentService.runningCount < 2 ^ 63) :
    ((Rollback cluster currentService nextServiceName originalTaskCount).length : Int) =
        (if currentService.runningCount ≤ originalTaskCount
          then originalTaskCount - currentService.runningCount
          else currentService.runningCount) ∧
      ((Rollback cluster currentService nextServiceName originalTaskCount).length = 0 ↔
        currentService.runningCount = originalTaskCount) := by
  have hw : wrapInt64 (originalTaskCount - currentService.runningCount) =
      originalTaskCount - currentService.runningCount :=
    wrapInt64_of_range _ (by omega) (by omega)
  have hlen : (Rollback cluster currentService nextServiceName originalTaskCount).length =
      (rollbackCount currentService originalTaskCount).toNat := by
    simp [Rollback]
  have hc : rollbackCount currentService originalTaskCount =
      (if currentService.runningCount ≤ originalTaskCount
        then originalTaskCount - currentService.runningCount
        else currentService.runningCount) := by
    simp only [rollbackCount, hw]
    split_ifs <;> omega
  rw [hlen, hc]
  split_ifs with c <;> constructor <;> omega

/-- C6 (witness): with an original count of 4 and a current service running
1 task, the counts are in range and `Rollback` starts 3 tasks. -/
theorem Rollback_count_witness :
    (0 : Int) ≤ 4 ∧ (4 : Int) < 2 ^ 63 ∧ (0 : Int) ≤ 1 ∧ (1 : Int) < 2 ^ 63 ∧
      (((Rollback "cluster" { serviceName := "current", taskDefinition := "td", runningCount := 1 }
          "next" 4).length : Int) = (if (1 : Int) ≤ 4 then 4 - 1 else 1) ∧
        ((Rollback "cluster" { serviceName := "current", taskDefinition := "td", runningCount := 1 }
          "next" 4).length = 0 ↔ (1 : Int) = 4)) :=
  ⟨by decide, by decide, by decide, by decide,
    Rollback_count "cluster" { serviceName := "current", taskDefinition := "td", runningCount := 1 }
      "next" 4 (by decide) (by decide) (by decide) (by decide)⟩

/-- C9 (the code at a failing input): rolling back the service `current`
(1 of 4 tasks running) against the next service `next` starts 3 tasks with
the current service's task definition, each in the group `service:next`. -/
theorem Rollback_group_names_next_service :
    Rollback "cluster" { serviceName := "current", taskDefinition := "td", runningCount := 1 }
        "next" 4
      = List.replicate 3
          { cluster := "cluster", taskDefinition := "td", group := "service:next" } := by
  decide

/-! ## The health sample (C7) -/

/-- The largest finite double is below the overflow threshold. -/
theorem maxFinite_lt : Float64.maxFinite < 2 ^ 2098 := by
  norm_num [Float64.maxFinite]

/-- Rounding a magnitude in the finite range stays in the finite range. -/
theorem roundNat53_le_maxFinite (n : Nat) (h : n ≤ Float64.maxFinite) :
    roundNat53 n ≤ Float64.maxFinite :=
  roundNat53_le_of_le n (2 ^ 53 - 1) 2045 (by decide) h

/-- A magnitude in the finite range does not overflow. -/
theorem ofUnits_of_le (sign : Bool) (w : Nat) (h : w ≤ Float64.maxFinite) :
    Float64.ofUnits sign w = Float64.finite sign w := by
  have := maxFinite_lt
  rw [Float64.ofUnits, if_neg (by omega)]

/-- The difference of two finite non-negative doubles is finite. -/
theorem float64_sub_finite (w1 w3 : Nat) (h1 : w1 ≤ Float64.maxFinite)
    (h3 : w3 ≤ Float64.maxFinite) :
    ∃ s w, Float64.sub (Float64.finite false w1) (Float64.finite false w3) =
      Float64.finite s w := by
  simp only [Float64.sub, Float64.neg, Float64.add]
  rw [if_neg (by decide)]
  split_ifs with c1 c2
  · exact ⟨_, _, rfl⟩
  · exact ⟨_, _, ofUnits_of_le _ _ (roundNat53_le_maxFinite _ (by omega))⟩
  · exact ⟨_, _, ofUnits_of_le _ _ (roundNat53_le_maxFinite _ (by omega))⟩

/-- The sum of two non-negative doubles that are not both zero is `+Inf` or a
positive finite double. -/
theorem float64_add_pos_or_inf (w1 w2 : Nat) (h : ¬ (w1 = 0 ∧ w2 = 0)) :
    Float64.add (Float64.finite false w1) (Float64.finite false w2) = Float64.inf false ∨
      ∃ w, 0 < w ∧
        Float64.add (Float64.finite false w1) (Float64.finite false w2) =
          Float64.finite false w := by
  simp only [Float64.add, if_true, Float64.ofUnits]
  split_ifs with c
  · exact Or.inl rfl
  · exact Or.inr ⟨_, roundNat53_pos _ (by omega), rfl⟩

/-- A finite double divided by `+Inf` or by a positive finite double is not
a NaN. -/
theorem float64_div_ne_nan (s : Bool) (w : Nat) (y : Float64)
    (h : y = Float64.inf false ∨ ∃ v, 0 < v ∧ y = Float64.finite false v) :
    Float64.div (Float64.finite s w) y ≠ Float64.nan := by
  rcases h with h | ⟨v, hv, h⟩
  · subst h
    intro hc
    cases hc
  · subst h
    simp only [Float64.div]
    rw [if_neg (Nat.pos_iff_ne_zero.mp hv), Float64.ofUnits]
    split_ifs
    · intro hc
      cases hc
    · intro hc
      cases hc

/-- The clamp `math.Max(0, math.Min(p, x))` of a value that is not a NaN is a
non-negative finite double of at most `p`. -/
theorem float64_clamp (p : Nat) (hp : 0 < p) (x : Float64) (h : x ≠ Float64.nan) :
    ∃ w, w ≤ p ∧
      Float64.max Float64.zero (Float64.min (Float64.finite false p) x) =
        Float64.finite false w := by
  have hmax1 : Float64.max Float64.zero (Float64.finite false p) = Float64.finite false p := by
    simp [Float64.max, Float64.zero, Float64.isZero, Float64.eq, Float64.lt,
      Float64.signbit]
    split_ifs with c1 c2
    · omega
    · omega
    · rfl
  cases x with
  | nan => exact absurd rfl h
  | inf s =>
    cases s
    · refine ⟨p, le_refl _, ?_⟩
      have : Float64.min (Float64.finite false p) (Float64.inf false) =
          Float64.finite false p := by
        simp [Float64.min, Float64.isZero, Float64.eq, Float64.lt]
      rw [this, hmax1]
    · refine ⟨0, Nat.zero_le _, ?_⟩
      have : Float64.min (Float64.finite false p) (Float64.inf true) = Float64.inf true := by
        simp [Float64.min]
      rw [this]
      simp [Float64.max, Float64.zero, Float64.isZero, Float64.eq, Float64.lt]
  | finite s w =>
    by_cases hlt : Float64.lt (Float64.finite false p) (Float64.finite s w) = true
    · refine ⟨p, le_refl _, ?_⟩
      have : Float64.min (Float64.finite false p) (Float64.finite s w) =
          Float64.finite false p := by
        simp [Float64.min, Float64.isZero, Float64.eq, hlt]
        omega
      rw [this, hmax1]
    · have : Float64.min (Float64.finite false p) (Float64.finite s w) =
          Float64.finite s w := by
        simp [Float64.min, Float64.isZero, Float64.eq, hlt]
        omega
      rw [this]
      cases s
      · refine ⟨w, ?_, ?_⟩
        · simp [Float64.lt] at hlt
          omega
        · simp [Float64.max, Float64.zero, Float64.isZero, Float64.eq, Float64.lt,
            Float64.signbit]
          split_ifs with c1 c2
          · have hw : w = 0 := by omega
            rw [hw]
          · omega
          · rfl
      · refine ⟨0, Nat.zero_le _, ?_⟩
        simp [Float64.max, Float64.zero, Float64.isZero, Float64.eq, Float64.lt,
          Float64.signbit]

/-- A non-negative finite double of at most `1` has a value in `[0, 1]`. -/
theorem toRat_unit (w : Nat) (h : w ≤ 2 ^ 1074) :
    ∃ q : ℚ, Float64.toRat (Float64.finite false w) = some q ∧ 0 ≤ q ∧ q ≤ 1 := by
  refine ⟨(w : ℚ) / 2 ^ 1074, ?_, ?_, ?_⟩
  · simp only [Float64.toRat, Bool.false_eq_true, if_false]
  · exact div_nonneg (Nat.cast_nonneg w) (pow_nonneg (by norm_num) 1074)
  · rw [div_le_one (pow_pos (by norm_num) 1074)]
    exact_mod_cast h

/-- The conversion of a natural number below `2 ^ 53` is exact. -/
theorem ofNat_eq (n : Nat) (h : n < 2 ^ 53) :
    Float64.ofNat n = Float64.finite false (n * 2 ^ 1074) := by
  have h1 : n * 2 ^ 1074 ≤ Float64.maxFinite := by
    have h2 : n * 2 ^ 1074 ≤ (2 ^ 53 - 1) * 2 ^ 1074 := Nat.mul_le_mul_right _ (by omega)
    have h3 : (2 ^ 53 - 1) * 2 ^ 1074 ≤ Float64.maxFinite := by
      rw [Float64.maxFinite]
      exact Nat.mul_le_mul_left _ (Nat.pow_le_pow_right (by decide) (by decide))
    exact le_trans h2 h3
  rw [Float64.ofNat, roundNat53_mul_pow n 1074 h, ofUnits_of_le _ _ h1]

/-- The value of `float64(n)` for `n` below `2 ^ 53` is `n`. -/
theorem toRat_ofNat (n : Nat) (h : n < 2 ^ 53) :
    Float64.toRat (Float64.ofNat n) = some (n : ℚ) := by
  rw [ofNat_eq n h]
  simp only [Float64.toRat, Bool.false_eq_true, if_false]
  congr 1
  rw [Nat.cast_mul, Nat.cast_pow, Nat.cast_ofNat]
  exact mul_div_cancel_right₀ _ (pow_ne_zero _ (by norm_num))

/-- The value of the double `2 ^ a`. -/
theorem toRat_pow (a : Nat) :
    Float64.toRat (Float64.finite false (2 ^ (a + 1074))) = some (2 ^ a) := by
  simp only [Float64.toRat, Bool.false_eq_true, if_false]
  congr 1
  have h : (((2 ^ (a + 1074) : Nat) : ℚ)) = 2 ^ a * 2 ^ 1074 := by
    rw [← pow_add]
    exact_mod_cast rfl
  rw [h]
  exact mul_div_cancel_right₀ _ (pow_ne_zero _ (by norm_num))

/-- Subtracting `0` from a power of two in the finite range is exact. -/
theorem float64_sub_zero_pow (k : Nat) (hk : k < 2098) :
    Float64.sub (Float64.finite false (2 ^ k)) Float64.zero = Float64.finite false (2 ^ k) := by
  have hr : roundNat53 (2 ^ k - 0) = 2 ^ k := by
    have h := roundNat53_mul_pow 1 k (by decide)
    rwa [Nat.one_mul] at h
  have hpos : 0 < 2 ^ k := pow_pos (by decide) k
  have hlt : ¬ 2 ^ 2098 ≤ 2 ^ k := by
    have := Nat.pow_lt_pow_right (show 1 < 2 by decide) hk
    omega
  simp only [Float64.sub, Float64.zero, Float64.neg, Float64.add]
  rw [if_neg (by decide), if_neg (by omega), if_pos hpos, hr, Float64.ofUnits, if_neg hlt]

/-- The sum `2 ^ 1023 + 2 ^ 1023` overflows to `+Inf`. -/
theorem float64_add_overflow :
    Float64.add (Float64.finite false (2 ^ 2097)) (Float64.finite false (2 ^ 2097)) =
      Float64.inf false := by
  have hr : roundNat53 (2 ^ 2097 + 2 ^ 2097) = 2 ^ 2098 := by
    have h := roundNat53_mul_pow 1 2098 (by decide)
    rw [Nat.one_mul] at h
    have h2 : 2 ^ 2097 + 2 ^ 2097 = 2 ^ 2098 := by
      rw [← Nat.two_mul, ← pow_succ']
    rw [h2]
    exact h
  simp only [Float64.add, if_true]
  rw [hr, Float64.ofUnits, if_pos (le_refl _)]

/-- The clamp of `+0` is `+0`. -/
theorem float64_clamp_zero (p : Nat) (hp : 0 < p) :
    Float64.max Float64.zero (Float64.min (Float64.finite false p) (Float64.finite false 0)) =
      Float64.zero := by
  have h1 : Float64.min (Float64.finite false p) (Float64.finite false 0) =
      Float64.finite false 0 := by
    simp [Float64.min, Float64.isZero, Float64.eq, Float64.lt]
    rw [if_neg (by omega), if_neg (by omega)]
  rw [h1]
  simp [Float64.max, Float64.zero, Float64.isZero, Float64.eq, Float64.signbit]

/-- C7 (amended): on finite non-negative doubles `requestCnt`, `elb5xxCnt`
and `target5xxCnt`, `AccumulatePeriodicServiceHealth` returns an error
exactly when `requestCnt == 0` and `elb5xxCnt == 0`; otherwise it returns a
sample whose `responseTime` is the fetched value and whose availability is
`math.Max(0, math.Min(1, q))` for the `float64` quotient
`q = (requestCnt - target5xxCnt) / (requestCnt + elb5xxCnt)`, each operation
rounded to nearest; that availability is a finite double (never a NaN) with
a value in `[0, 1]`. -/
theorem AccumulatePeriodicServiceHealth_spec (w1 w2 w3 : Nat) (responseTime : Float64)
    (h1 : w1 ≤ Float64.maxFinite) (h3 : w3 ≤ Float64.maxFinite) :
    ((∃ err, AccumulatePeriodicServiceHealth (Float64.finite false w1)
        (Float64.finite false w2) (Float64.finite false w3) responseTime = Except.error err) ↔
      (w1 = 0 ∧ w2 = 0)) ∧
    (¬ (w1 = 0 ∧ w2 = 0) →
      ∃ health, AccumulatePeriodicServiceHealth (Float64.finite false w1)
          (Float64.finite false w2) (Float64.finite false w3) responseTime = Except.ok health ∧
        health.availability =
          Float64.max Float64.zero (Float64.min Float64.one
            (Float64.div
              (Float64.sub (Float64.finite false w1) (Float64.finite false w3))
              (Float64.add (Float64.finite false w1) (Float64.finite false w2)))) ∧
        (∃ q : ℚ, Float64.toRat health.availability = some q ∧ 0 ≤ q ∧ q ≤ 1) ∧
        health.responseTime = responseTime) := by
  have hz : (Float64.isZero (Float64.finite false w1) = true ∧
      Float64.isZero (Float64.finite false w2) = true) ↔ (w1 = 0 ∧ w2 = 0) := by
    simp [Float64.isZero]
  constructor
  · constructor
    · rintro ⟨err, he⟩
      by_contra hc
      rw [AccumulatePeriodicServiceHealth, if_neg (fun hh => hc (hz.mp hh))] at he
      cases he
    · intro hc
      exact ⟨_, by rw [AccumulatePeriodicServiceHealth, if_pos (hz.mpr hc)]⟩
  · intro hc
    refine ⟨_, by rw [AccumulatePeriodicServiceHealth, if_neg (fun hh => hc (hz.mp hh))], rfl,
      ?_, rfl⟩
    obtain ⟨s, w, hsub⟩ := float64_sub_finite w1 w3 h1 h3
    have hne := float64_div_ne_nan s w _ (float64_add_pos_or_inf w1 w2 hc)
    simp only
    rw [hsub]
    obtain ⟨v, hv, hclamp⟩ := float64_clamp (2 ^ 1074) (pow_pos (by decide) 1074) _ hne
    rw [Float64.one, hclamp]
    exact toRat_unit v hv

/-- C7 (witness): the amended statement at the doubles 100, 1 and 4, which
are in range and not both zero. -/
theorem AccumulatePeriodicServiceHealth_spec_witness :
    100 * 2 ^ 1074 ≤ Float64.maxFinite ∧ 4 * 2 ^ 1074 ≤ Float64.maxFinite ∧
    ¬ (100 * 2 ^ 1074 = 0 ∧ 1 * 2 ^ 1074 = 0) ∧
    (((∃ err, AccumulatePeriodicServiceHealth (Float64.finite false (100 * 2 ^ 1074))
        (Float64.finite false (1 * 2 ^ 1074)) (Float64.finite false (4 * 2 ^ 1074))
        Float64.zero = Except.error err) ↔
      (100 * 2 ^ 1074 = 0 ∧ 1 * 2 ^ 1074 = 0)) ∧
    (¬ (100 * 2 ^ 1074 = 0 ∧ 1 * 2 ^ 1074 = 0) →
      ∃ health, AccumulatePeriodicServiceHealth (Float64.finite false (100 * 2 ^ 1074))
          (Float64.finite false (1 * 2 ^ 1074)) (Float64.finite false (4 * 2 ^ 1074))
          Float64.zero = Except.ok health ∧
        health.availability =
          Float64.max Float64.zero (Float64.min Float64.one
            (Float64.div
              (Float64.sub (Float64.finite false (100 * 2 ^ 1074))
                (Float64.finite false (4 * 2 ^ 1074)))
              (Float64.add (Float64.finite false (100 * 2 ^ 1074))
                (Float64.finite false (1 * 2 ^ 1074))))) ∧
        (∃ q : ℚ, Float64.toRat health.availability = some q ∧ 0 ≤ q ∧ q ≤ 1) ∧
        health.responseTime = Float64.zero)) :=
  have h1 : 100 * 2 ^ 1074 ≤ Float64.maxFinite := by norm_num [Float64.maxFinite]
  have h3 : 4 * 2 ^ 1074 ≤ Float64.maxFinite := by norm_num [Float64.maxFinite]
  have hne : ¬ (100 * 2 ^ 1074 = 0 ∧ 1 * 2 ^ 1074 = 0) := by norm_num
  ⟨h1, h3, hne,
    AccumulatePeriodicServiceHealth_spec (100 * 2 ^ 1074) (1 * 2 ^ 1074) (4 * 2 ^ 1074)
      Float64.zero h1 h3⟩

set_option maxRecDepth 100000 in
/-- C7 (counterexample): for the counts 100, 1 and 4, each converted exactly,
the code returns the availability `1070162287691999 * 2 ^ -50`, the double
nearest to `96 / 101`, and not the rational
`clamp(0, 1, (100 - 4) / (100 + 1)) = 96 / 101`. -/
theorem AccumulatePeriodicServiceHealth_rounds :
    Float64.toRat (Float64.ofNat 100) = some 100 ∧
    Float64.toRat (Float64.ofNat 1) = some 1 ∧
    Float64.toRat (Float64.ofNat 4) = some 4 ∧
    AccumulatePeriodicServiceHealth (Float64.ofNat 100) (Float64.ofNat 1)
        (Float64.ofNat 4) (Float64.ofNat 0) =
      Except.ok { availability := Float64.finite false (1070162287691999 * 2 ^ 1024),
                  responseTime := Float64.ofNat 0 } ∧
    Float64.toRat (Float64.finite false (1070162287691999 * 2 ^ 1024)) ≠
      some (max 0 (min 1 (((100 : ℚ) - 4) / (100 + 1)))) := by
  refine ⟨?_, ?_, ?_, rfl, ?_⟩
  · simpa using toRat_ofNat 100 (by decide)
  · simpa using toRat_ofNat 1 (by decide)
  · simpa using toRat_ofNat 4 (by decide)
  · simp only [Float64.toRat]
    norm_num

/-- The health sample at the doubles `2 ^ 1023`, `2 ^ 1023` and `0`: the sum
`requestCnt + elb5xxCnt` overflows to `+Inf`, so the code returns the
availability `0`, whereas `clamp(0, 1, ·)` of the rational quotient is
`1 / 2`. -/
theorem AccumulatePeriodicServiceHealth_overflows :
    Float64.toRat (Float64.finite false (2 ^ 2097)) = some (2 ^ 1023) ∧
    AccumulatePeriodicServiceHealth (Float64.finite false (2 ^ 2097))
        (Float64.finite false (2 ^ 2097)) Float64.zero Float64.zero =
      Except.ok { availability := Float64.zero, responseTime := Float64.zero } ∧
    max 0 (min 1 (((2 : ℚ) ^ 1023 - 0) / (2 ^ 1023 + 2 ^ 1023))) = 1 / 2 := by
  refine ⟨toRat_pow 1023, ?_, ?_⟩
  · have hz : ¬ (Float64.isZero (Float64.finite false (2 ^ 2097)) = true ∧
        Float64.isZero (Float64.finite false (2 ^ 2097)) = true) := by
      have hpos : 0 < 2 ^ 2097 := pow_pos (by decide) 2097
      simp only [Float64.isZero, decide_eq_true_eq]
      omega
    rw [AccumulatePeriodicServiceHealth, if_neg hz]
    simp only
    rw [float64_sub_zero_pow 2097 (by decide), float64_add_overflow]
    simp only [Float64.div, Bool.xor_false]
    rw [Float64.one, float64_clamp_zero (2 ^ 1074) (pow_pos (by decide) 1074)]
  · have h : ∀ a : ℚ, a ≠ 0 → (a - 0) / (a + a) = 1 / 2 := by
      intro a ha
      rw [sub_zero, ← two_mul, div_eq_iff (mul_ne_zero (by norm_num) ha)]
      ring
    rw [h _ (pow_ne_zero _ (by norm_num))]
    norm_num

/-! ## RollOut on an empty task list (C8) -/

/-- C8 (amended): when `ListTasks` returns an empty list, `RollOut` returns
no error, leaves `replacedCount` unchanged and increments `rollOutCount` by
one (for a `rollOutCount` below the largest `int`). -/
theorem RollOut_empty (impl : F64 → Int) (replaceTask : String → Except String Unit)
    (counters : RollOutCounters)
    (hlo : -(2 ^ 63) ≤ counters.rollOutCount) (hhi : counters.rollOutCount < 2 ^ 63 - 1) :
    RollOut impl (Except.ok []) replaceTask counters
      = Except.ok { replacedCount := counters.replacedCount,
                    rollOutCount := counters.rollOutCount + 1 } := by
  simp only [RollOut, List.take_nil, replaceTasks]
  rw [wrapInt64_of_range _ (by omega) (by omega)]

/-- C8 (witness): the amended statement at `replacedCount = 3`,
`rollOutCount = 2`. -/
theorem RollOut_empty_witness :
    (-(2 ^ 63) ≤ (2 : Int) ∧ (2 : Int) < 2 ^ 63 - 1) ∧
    RollOut saturating (Except.ok []) (fun _ => Except.ok ())
        { replacedCount := 3, rollOutCount := 2 }
      = Except.ok { replacedCount := 3, rollOutCount := 2 + 1 } :=
  ⟨by decide, RollOut_empty saturating (fun _ => Except.ok ())
    { replacedCount := 3, rollOutCount := 2 } (by decide) (by decide)⟩

/-- C8 (counterexample): called with both counters at 0 and an empty task
list, `RollOut` returns no error and `rollOutCount` is 1 afterwards. -/
theorem RollOut_empty_increments :
    RollOut saturating (Except.ok []) (fun _ => Except.ok ())
        { replacedCount := 0, rollOutCount := 0 }
      = Except.ok { replacedCount := 0, rollOutCount := 1 } := by
  rfl

/-! ## ExtractAlbId (C10) -/

theorem dotPlusLazy_to_end {α : Type} (g : List Char → α) (t : List Char) (ht : t ≠ [])
    (hnl : '\n' ∉ t) :
    dotPlusLazy (fun s2 => if s2 = [] then some (g s2) else none) t = some (g []) := by
  induction t with
  | nil => exact absurd rfl ht
  | cons c rest ih =>
    have hc : c ≠ '\n' := fun h => hnl (h ▸ List.mem_cons_self _ _)
    rw [dotPlusLazy, if_neg hc]
    cases rest with
    | nil => simp
    | cons c2 r2 =>
      have hrest : '\n' ∉ c2 :: r2 := fun h => hnl (List.mem_cons_of_mem _ h)
      rw [ih (List.cons_ne_nil _ _) hrest]
      simp

theorem dotPlusGreedy_none {α : Type} (k : List Char → Option α) (s : List Char)
    (hk : ∀ a b, a ≠ [] → a ++ b = s → k b = none) : dotPlusGreedy k s = none := by
  induction s with
  | nil => rfl
  | cons c rest ih =>
    rw [dotPlusGreedy]
    split_ifs
    · rfl
    · rw [ih (fun a b ha hab => hk (c :: a) b (List.cons_ne_nil _ _) (by rw [← hab]; rfl)),
        hk [c] rest (List.cons_ne_nil _ _) rfl]
      rfl

theorem dotPlusGreedy_last {α : Type} (k : List Char → Option α) (pre s : List Char) (r : α)
    (hpre : pre ≠ []) (hnl : '\n' ∉ pre) (hs : k s = some r)
    (hk : ∀ a b, a ≠ [] → a ++ b = s → k b = none) :
    dotPlusGreedy k (pre ++ s) = some r := by
  induction pre with
  | nil => exact absurd rfl hpre
  | cons c rest ih =>
    have hc : c ≠ '\n' := fun h => hnl (h ▸ List.mem_cons_self _ _)
    rw [List.cons_append, dotPlusGreedy, if_neg hc]
    cases rest with
    | nil =>
      rw [List.nil_append, dotPlusGreedy_none k s hk, hs]
      rfl
    | cons c2 r2 =>
      have hrest : '\n' ∉ c2 :: r2 := fun h => hnl (List.mem_cons_of_mem _ h)
      rw [ih (List.cons_ne_nil _ _) hrest]
      rfl

theorem literal_of_not_prefix {α : Type} (lit : List Char) (k : List Char → Option α)
    (s : List Char) (h : ¬ lit <+: s) : literal lit k s = none := by
  rw [literal, if_neg]
  rw [List.isPrefixOf_iff_prefix]
  exact h

theorem literal_append {α : Type} (lit : List Char) (k : List Char → Option α)
    (t : List Char) : literal lit k (lit ++ t) = k t := by
  rw [literal, if_pos, List.drop_left]
  rw [List.isPrefixOf_iff_prefix]
  exact List.prefix_append _ _

theorem consumed_nil (s : List Char) : consumed s [] = s := by
  simp [consumed]

theorem suffixPattern_last (lit pre t : List Char) (hpre : pre ≠ []) (hprenl : '\n' ∉ pre)
    (ht : t ≠ []) (htnl : '\n' ∉ t)
    (hlast : ∀ a b, a ≠ [] → a ++ b = lit ++ t → ¬ lit <+: b) :
    suffixPattern lit true (pre ++ (lit ++ t)) = some (pre ++ (lit ++ t), lit ++ t) := by
  rw [suffixPattern, if_pos rfl]
  apply dotPlusGreedy_last _ pre (lit ++ t) _ hpre hprenl
  · rw [literal_append,
      dotPlusLazy_to_end (fun s2 => (consumed (pre ++ (lit ++ t)) s2, consumed (lit ++ t) s2))
        t ht htnl, consumed_nil, consumed_nil]
  · intro a b ha hab
    exact literal_of_not_prefix _ _ _ (hlast a b ha hab)

theorem searchFrom_of_some {α : Type} (pattern : Bool → List Char → Option α) (atStart : Bool)
    (s : List Char) (r : α) (h : pattern atStart s = some r) :
    searchFrom pattern atStart s = some r := by
  cases s with
  | nil => rw [searchFrom, h]
  | cons c rest => rw [searchFrom, h]; rfl

theorem FindStringSubmatch_last (lit pre t : String) (hpre : pre ≠ "") (hprenl : '\n' ∉ pre.toList)
    (ht : t ≠ "") (htnl : '\n' ∉ t.toList)
    (hlast : ∀ a b, a ≠ [] → a ++ b = lit.toList ++ t.toList → ¬ lit.toList <+: b) :
    FindStringSubmatch lit (pre ++ (lit ++ t)) = some (pre ++ (lit ++ t), lit ++ t) := by
  have hpre' : pre.toList ≠ [] := fun h => hpre (String.ext h)
  have ht' : t.toList ≠ [] := fun h => ht (String.ext h)
  have h := suffixPattern_last lit.toList pre.toList t.toList hpre' hprenl ht' htnl hlast
  have h2 : (pre ++ (lit ++ t)).toList = pre.toList ++ (lit.toList ++ t.toList) := by
    simp [String.toList]
  rw [FindStringSubmatch, h2, searchFrom_of_some _ _ _ _ h]
  simp only [Option.map_some', ← h2]
  rfl

theorem split_first_unique {x : Char} {u u' v v' : List Char} (hu : x ∉ u) (hu' : x ∉ u')
    (h : u ++ x :: v = u' ++ x :: v') : u = u' ∧ v = v' := by
  induction u generalizing u' with
  | nil =>
    cases u' with
    | nil => simpa using h
    | cons c r =>
      simp only [List.nil_append, List.cons_append, List.cons.injEq] at h
      exact absurd (h.1 ▸ List.mem_cons_self _ _) hu'
  | cons d t ih =>
    cases u' with
    | nil =>
      simp only [List.nil_append, List.cons_append, List.cons.injEq] at h
      exact absurd (h.1 ▸ List.mem_cons_self _ _) hu
    | cons c r =>
      simp only [List.cons_append, List.cons.injEq] at h
      obtain ⟨h1, h2⟩ := ih (fun hm => hu (List.mem_cons_of_mem _ hm))
        (fun hm => hu' (List.mem_cons_of_mem _ hm)) h.2
      exact ⟨by rw [h.1, h1], h2⟩

theorem no_later_literal (x : Char) (X name id : List Char) (hX : x ∉ X) (hname : x ∉ name)
    (hid : x ∉ id) (hsuf : ¬ X <:+ name) :
    ∀ a b, a ≠ [] → a ++ b = (X ++ [x]) ++ (name ++ x :: id) → ¬ (X ++ [x]) <+: b := by
  rintro a b ha hab ⟨c, rfl⟩
  have hab' : a ++ X ++ x :: c = X ++ x :: (name ++ x :: id) := by
    simpa using hab
  by_cases hmem : x ∈ a
  · obtain ⟨a1, a2, rfl, ha1⟩ := List.eq_append_cons_of_mem hmem
    have h1 : a1 ++ x :: (a2 ++ X ++ x :: c) = X ++ x :: (name ++ x :: id) := by
      simpa using hab'
    obtain ⟨-, h2⟩ := split_first_unique ha1 hX h1
    by_cases hmem2 : x ∈ a2
    · obtain ⟨a3, a4, rfl, ha3⟩ := List.eq_append_cons_of_mem hmem2
      have h3 : a3 ++ x :: (a4 ++ X ++ x :: c) = name ++ x :: id := by
        simpa using h2
      obtain ⟨-, h4⟩ := split_first_unique ha3 hname h3
      exact hid (h4 ▸ by simp)
    · have hx2 : x ∉ a2 ++ X := by
        simp [hmem2, hX]
      obtain ⟨h5, -⟩ := split_first_unique hx2 hname h2
      exact hsuf ⟨a2, h5⟩
  · have hx : x ∉ a ++ X := by
      simp [hmem, hX]
    obtain ⟨h1, -⟩ := split_first_unique hx hX hab'
    exact ha (List.append_left_eq_self.mp h1)
/-- The cases of `TestExtractAlbId`. -/
theorem ExtractAlbId_tests :
    ExtractAlbId "arn:aws:elasticloadbalancing:us-west-2:1111:loadbalancer/app/alb/12345"
        = Except.ok "app/alb/12345"
      ∧ ExtractAlbId "hogehoge" = Except.error "could not find alb id in 'hogehoge'" :=
  ⟨rfl, rfl⟩

/-- C10 (amended): for every ARN `P ++ "loadbalancer/app/" ++ name ++ "/" ++
id` in which `P` contains no line feed, `name` and `id` contain no `/` and
no line feed, and `name` does not end in `app`, `ExtractAlbId` returns
without error `"app/" ++ name ++ "/" ++ id`. -/
theorem ExtractAlbId_loadbalancer_arn (P name id : String)
    (hPnl : '\n' ∉ P.toList)
    (hname1 : '/' ∉ name.toList) (hname2 : '\n' ∉ name.toList)
    (hid1 : '/' ∉ id.toList) (hid2 : '\n' ∉ id.toList)
    (happ : ¬ "app".toList <:+ name.toList) :
    ExtractAlbId (P ++ "loadbalancer/app/" ++ name ++ "/" ++ id)
      = Except.ok ("app/" ++ name ++ "/" ++ id) := by
  have harn : P ++ "loadbalancer/app/" ++ name ++ "/" ++ id
      = (P ++ "loadbalancer/") ++ ("app/" ++ (name ++ "/" ++ id)) := by
    apply String.ext
    simp only [String.data_append]
    simp
  have hres : "app/" ++ name ++ "/" ++ id = "app/" ++ (name ++ "/" ++ id) := by
    apply String.ext
    simp only [String.data_append]
    simp
  have hfind := FindStringSubmatch_last "app/" (P ++ "loadbalancer/") (name ++ "/" ++ id)
    (by
      intro h
      have := congrArg String.length h
      simp at this
      exact absurd this.2 (by decide))
    (by
      simp only [String.toList, String.data_append, List.mem_append, not_or]
      exact ⟨hPnl, by decide⟩)
    (by
      intro h
      have := congrArg String.length h
      simp at this
      exact absurd this.1.2 (by decide))
    (by
      simp only [String.toList, String.data_append, List.mem_append, not_or]
      exact ⟨⟨hname2, by decide⟩, hid2⟩)
    (by
      have h := no_later_literal '/' "app".toList name.toList id.toList (by decide) hname1 hid1 happ
      intro a b ha hab
      apply h a b ha
      rw [hab]
      simp [String.toList])
  rw [harn, hres, ExtractAlbId, hfind]

/-- C10 (witness): the amended statement at the ARN of the test suite. -/
theorem ExtractAlbId_loadbalancer_arn_witness :
    ('\n' ∉ "arn:aws:elasticloadbalancing:us-west-2:1111:".toList
      ∧ '/' ∉ "alb".toList ∧ '\n' ∉ "alb".toList
      ∧ '/' ∉ "12345".toList ∧ '\n' ∉ "12345".toList
      ∧ ¬ "app".toList <:+ "alb".toList) ∧
    ExtractAlbId ("arn:aws:elasticloadbalancing:us-west-2:1111:" ++ "loadbalancer/app/"
        ++ "alb" ++ "/" ++ "12345")
      = Except.ok ("app/" ++ "alb" ++ "/" ++ "12345") :=
  ⟨by decide, ExtractAlbId_loadbalancer_arn "arn:aws:elasticloadbalancing:us-west-2:1111:"
    "alb" "12345" (by decide) (by decide) (by decide) (by decide) (by decide) (by decide)⟩

/-- C10 (counterexample): for `P = "arn:"`, `name = "myapp"`, `id = "1"` the
greedy `.+` runs up to the last `app/`, so `ExtractAlbId` returns `app/1`
and not `app/myapp/1`; for `P = "a\nb"`, `name = "alb"`, `id = "1"` the
pattern does not match and `ExtractAlbId` returns an error. -/
theorem ExtractAlbId_not_always_whole_id :
    ExtractAlbId ("arn:" ++ "loadbalancer/app/" ++ "myapp" ++ "/" ++ "1") = Except.ok "app/1"
      ∧ ExtractAlbId ("a\nb" ++ "loadbalancer/app/" ++ "alb" ++ "/" ++ "1")
          = Except.error ("could not find alb id in '" ++ "a\nbloadbalancer/app/alb/1" ++ "'") :=
  ⟨rfl, rfl⟩

/-! ## EnsureEnvars and MergeEnvars (C14, C15, C16) -/

/-- C14 (amended): `EnsureEnvars` returns an error when `Cluster` is empty,
when `Service` is empty, and when no task-definition source is provided
(`TaskDefinitionArn` empty and no payload loaded); it returns no error when
`Cluster` and `Service` are non-empty and a task-definition payload is
loaded, whether or not `TaskDefinitionArn` is given as well. -/
theorem EnsureEnvars_errors (dest : Envars) :
    ((dest.Cluster = "" ∨ dest.Service = ""
        ∨ (dest.TaskDefinitionArn = "" ∧ dest.taskDefinition = none)) →
      (EnsureEnvars dest).2 ≠ none)
    ∧ ((dest.Cluster ≠ "" ∧ dest.Service ≠ "" ∧ dest.taskDefinition ≠ none) →
      (EnsureEnvars dest).2 = none) := by
  constructor
  · intro h
    unfold EnsureEnvars
    split_ifs with h1 h2 h3 h4
    · simp
    · simp
    · simp
    · rcases h with h | h | h
      · exact absurd h h1
      · exact absurd h h2
      · exact absurd h.2 h3
    · rcases h with h | h | h
      · exact absurd h h1
      · exact absurd h h2
      · exact absurd h.2 h3
  · rintro ⟨h1, h2, h3⟩
    unfold EnsureEnvars
    rw [if_neg h1, if_neg h2, if_neg h3]
    split_ifs <;> rfl

/-- C14 (witness): an empty cluster is refused; cluster, service and payload
are accepted. -/
theorem EnsureEnvars_errors_witness :
    (EnsureEnvars (Envars.mk "" "" "service" "" "" (some "td") none)).2 ≠ none
      ∧ (EnsureEnvars (Envars.mk "" "cluster" "service" "" "" (some "td") none)).2 = none :=
  ⟨(EnsureEnvars_errors (Envars.mk "" "" "service" "" "" (some "td") none)).1 (Or.inl rfl),
    (EnsureEnvars_errors (Envars.mk "" "cluster" "service" "" "" (some "td") none)).2
      (by decide)⟩

/-- C14 (counterexample): with cluster and service set, `TaskDefinitionArn`
non-empty and a payload loaded (both sources), `EnsureEnvars` returns no
error. -/
theorem EnsureEnvars_accepts_both_sources :
    (EnsureEnvars (Envars.mk "" "cluster" "service" "" "arn" (some "td") none)).2 = none := by
  decide

/-- C15: when `EnsureEnvars` succeeds, `Region` afterwards is the input
`Region` if that was non-empty and `us-west-2` otherwise, and every other
field is unchanged; when it returns an error the whole record is
unchanged. -/
theorem EnsureEnvars_frame (dest : Envars) :
    ((EnsureEnvars dest).2 = none →
      (EnsureEnvars dest).1.Region = (if dest.Region = "" then "us-west-2" else dest.Region)
      ∧ (EnsureEnvars dest).1.Cluster = dest.Cluster
      ∧ (EnsureEnvars dest).1.Service = dest.Service
      ∧ (EnsureEnvars dest).1.CanaryInstanceArn = dest.CanaryInstanceArn
      ∧ (EnsureEnvars dest).1.TaskDefinitionArn = dest.TaskDefinitionArn
      ∧ (EnsureEnvars dest).1.taskDefinition = dest.taskDefinition
      ∧ (EnsureEnvars dest).1.serviceDefinition = dest.serviceDefinition)
    ∧ ((EnsureEnvars dest).2 ≠ none → (EnsureEnvars dest).1 = dest) := by
  by_cases h1 : dest.Cluster = ""
  · simp [EnsureEnvars, h1]
  · by_cases h2 : dest.Service = ""
    · simp [EnsureEnvars, h1, h2]
    · by_cases h3 : dest.taskDefinition = none
      · simp [EnsureEnvars, h1, h2, h3]
      · by_cases h4 : dest.Region = ""
        · simp [EnsureEnvars, h1, h2, h3, h4, kDefaultRegion]
        · simp [EnsureEnvars, h1, h2, h3, h4]

/-- C15 (witness): the statement at a record without region (success) and
at a record without cluster (error). -/
theorem EnsureEnvars_frame_witness :
    (EnsureEnvars (Envars.mk "" "cluster" "service" "" "" (some "td") none)).1.Region
        = "us-west-2"
      ∧ (EnsureEnvars (Envars.mk "" "" "service" "" "" (some "td") none)).1
        = Envars.mk "" "" "service" "" "" (some "td") none :=
  ⟨((EnsureEnvars_frame (Envars.mk "" "cluster" "service" "" "" (some "td") none)).1
      (by decide)).1,
    (EnsureEnvars_frame (Envars.mk "" "" "service" "" "" (some "td") none)).2 (by decide)⟩

theorem MergeEnvars_fields (dest src : Envars) :
    MergeEnvars dest src =
      ({ Region := if src.Region ≠ "" then src.Region else dest.Region,
         Cluster := if src.Cluster ≠ "" then src.Cluster else dest.Cluster,
         Service := if src.Service ≠ "" then src.Service else dest.Service,
         CanaryInstanceArn :=
           if src.CanaryInstanceArn ≠ "" then src.CanaryInstanceArn else dest.CanaryInstanceArn,
         TaskDefinitionArn :=
           if src.TaskDefinitionArn ≠ "" then src.TaskDefinitionArn else dest.TaskDefinitionArn,
         taskDefinition := dest.taskDefinition,
         serviceDefinition := dest.serviceDefinition }, src) := by
  by_cases h1 : src.Region = "" <;> by_cases h2 : src.Cluster = "" <;>
    by_cases h3 : src.Service = "" <;> by_cases h4 : src.CanaryInstanceArn = "" <;>
    by_cases h5 : src.TaskDefinitionArn = "" <;>
    simp [MergeEnvars, h1, h2, h3, h4, h5]

/-- C16: after `MergeEnvars(dest, src)` each of `Region`, `Cluster`,
`Service`, `CanaryInstanceArn` and `TaskDefinitionArn` of `dest` is the
field of `src` when that is non-empty and the previous value otherwise;
`taskDefinition` and `serviceDefinition` of `dest` and the whole of `src`
are unchanged; merging an all-empty `src` is the identity and merging the
same `src` twice equals merging it once. -/
theorem MergeEnvars_spec (dest src : Envars) :
    (MergeEnvars dest src).1.Region = (if src.Region ≠ "" then src.Region else dest.Region)
    ∧ (MergeEnvars dest src).1.Cluster = (if src.Cluster ≠ "" then src.Cluster else dest.Cluster)
    ∧ (MergeEnvars dest src).1.Service = (if src.Service ≠ "" then src.Service else dest.Service)
    ∧ (MergeEnvars dest src).1.CanaryInstanceArn
        = (if src.CanaryInstanceArn ≠ "" then src.CanaryInstanceArn else dest.CanaryInstanceArn)
    ∧ (MergeEnvars dest src).1.TaskDefinitionArn
        = (if src.TaskDefinitionArn ≠ "" then src.TaskDefinitionArn else dest.TaskDefinitionArn)
    ∧ (MergeEnvars dest src).1.taskDefinition = dest.taskDefinition
    ∧ (MergeEnvars dest src).1.serviceDefinition = dest.serviceDefinition
    ∧ (MergeEnvars dest src).2 = src
    ∧ ((src.Region = "" ∧ src.Cluster = "" ∧ src.Service = "" ∧ src.CanaryInstanceArn = ""
          ∧ src.TaskDefinitionArn = "") → (MergeEnvars dest src).1 = dest)
    ∧ (MergeEnvars (MergeEnvars dest src).1 src).1 = (MergeEnvars dest src).1 := by
  refine ⟨?_, ?_, ?_, ?_, ?_, ?_, ?_, ?_, ?_, ?_⟩
  · rw [MergeEnvars_fields]
  · rw [MergeEnvars_fields]
  · rw [MergeEnvars_fields]
  · rw [MergeEnvars_fields]
  · rw [MergeEnvars_fields]
  · rw [MergeEnvars_fields]
  · rw [MergeEnvars_fields]
  · rw [MergeEnvars_fields]
  · rintro ⟨h1, h2, h3, h4, h5⟩
    rw [MergeEnvars_fields]
    simp [h1, h2, h3, h4, h5]
  · rw [MergeEnvars_fields, MergeEnvars_fields]
    simp only [Envars.mk.injEq]
    refine ⟨?_, ?_, ?_, ?_, ?_, trivial, trivial⟩ <;> split_ifs <;> rfl

/-- C16 (witness): merging an all-empty record leaves `dest` as it is. -/
theorem MergeEnvars_spec_witness :
    (MergeEnvars (Envars.mk "r" "c" "s" "i" "arn" (some "td") none)
        (Envars.mk "" "" "" "" "" (some "x") (some "y"))).1
      = Envars.mk "r" "c" "s" "i" "arn" (some "td") none :=
  (MergeEnvars_spec (Envars.mk "r" "c" "s" "i" "arn" (some "td") none)
    (Envars.mk "" "" "" "" "" (some "x") (some "y"))).2.2.2.2.2.2.2.2.1
    ⟨rfl, rfl, rfl, rfl, rfl⟩

/-! ## The matches of `^.+(lit.+?)$` (C18, C11) -/

theorem searchFrom_suffixPattern_false (lit s : List Char) :
    searchFrom (suffixPattern lit) false s = none := by
  induction s with
  | nil => rfl
  | cons c rest ih =>
    rw [searchFrom, ih]
    rfl

theorem searchFrom_suffixPattern (lit s : List Char) :
    searchFrom (suffixPattern lit) true s = suffixPattern lit true s := by
  cases s with
  | nil => rfl
  | cons c rest =>
    rw [searchFrom, searchFrom_suffixPattern_false]
    cases suffixPattern lit true (c :: rest) <;> rfl

theorem dotPlusLazy_to_end_some {α : Type} (g : List Char → α) (t : List Char) (r : α)
    (h : dotPlusLazy (fun s2 => if s2 = [] then some (g s2) else none) t = some r) :
    t ≠ [] ∧ '\n' ∉ t ∧ r = g [] := by
  induction t with
  | nil => simp [dotPlusLazy] at h
  | cons c rest ih =>
    rw [dotPlusLazy] at h
    by_cases hc : c = '\n'
    · rw [if_pos hc] at h
      exact absurd h (by simp)
    · rw [if_neg hc] at h
      refine ⟨List.cons_ne_nil _ _, ?_⟩
      by_cases hrest : rest = []
      · subst hrest
        simp at h
        exact ⟨by simpa using Ne.symm hc, h.symm⟩
      · rw [if_neg hrest] at h
        obtain ⟨-, h2, h3⟩ := ih (by simpa using h)
        refine ⟨?_, h3⟩
        intro hm
        rcases List.mem_cons.mp hm with hm | hm
        · exact hc hm.symm
        · exact h2 hm

theorem literal_some {α : Type} (lit : List Char) (k : List Char → Option α) (s : List Char)
    (r : α) (h : literal lit k s = some r) : ∃ t, s = lit ++ t ∧ k t = some r := by
  unfold literal at h
  split_ifs at h with hp
  rw [List.isPrefixOf_iff_prefix] at hp
  obtain ⟨t, rfl⟩ := hp
  rw [List.drop_left] at h
  exact ⟨t, rfl, h⟩

theorem dotPlusGreedy_isSome {α : Type} (k : List Char → Option α) (a b : List Char)
    (ha : a ≠ []) (hnl : '\n' ∉ a) (hk : (k b).isSome) : (dotPlusGreedy k (a ++ b)).isSome := by
  induction a with
  | nil => exact absurd rfl ha
  | cons c rest ih =>
    have hc : c ≠ '\n' := fun h => hnl (h ▸ List.mem_cons_self _ _)
    rw [List.cons_append, dotPlusGreedy, if_neg hc]
    cases rest with
    | nil =>
      rw [List.nil_append]
      cases hg : dotPlusGreedy k b with
      | some r => rfl
      | none => exact hk
    | cons c2 r2 =>
      have h2 := ih (List.cons_ne_nil _ _) (fun h => hnl (List.mem_cons_of_mem _ h))
      cases hg : dotPlusGreedy k (c2 :: r2 ++ b) with
      | some r => rfl
      | none => rw [hg] at h2; exact absurd h2 (by simp)

theorem dotPlusGreedy_sound {α : Type} (k : List Char → Option α) (s : List Char) (r : α)
    (h : dotPlusGreedy k s = some r) :
    ∃ a b, s = a ++ b ∧ a ≠ [] ∧ '\n' ∉ a ∧ k b = some r
      ∧ ∀ a' b', s = a' ++ b' → a.length < a'.length → '\n' ∉ a' → k b' = none := by
  induction s with
  | nil => simp [dotPlusGreedy] at h
  | cons c rest ih =>
    rw [dotPlusGreedy] at h
    by_cases hc : c = '\n'
    · rw [if_pos hc] at h
      exact absurd h (by simp)
    · rw [if_neg hc] at h
      cases hg : dotPlusGreedy k rest with
      | some r' =>
        rw [hg] at h
        have hr : r' = r := by simpa using h
        subst hr
        obtain ⟨a, b, hab, ha, hnl, hk, hmax⟩ := ih hg
        refine ⟨c :: a, b, by rw [hab]; rfl, List.cons_ne_nil _ _, ?_, hk, ?_⟩
        · intro hm
          rcases List.mem_cons.mp hm with hm | hm
          · exact hc hm.symm
          · exact hnl hm
        · intro a' b' hab' hlen hnl'
          cases a' with
          | nil => simp at hlen
          | cons c' a0 =>
            simp only [List.cons_append, List.cons.injEq] at hab'
            exact hmax a0 b' hab'.2 (by simpa using hlen)
              (fun hm => hnl' (List.mem_cons_of_mem _ hm))
      | none =>
        rw [hg] at h
        have hk : k rest = some r := by simpa using h
        refine ⟨[c], rest, rfl, List.cons_ne_nil _ _, by simpa using Ne.symm hc, hk, ?_⟩
        intro a' b' hab' hlen hnl'
        cases a' with
        | nil => simp at hlen
        | cons c' a0 =>
          simp only [List.cons_append, List.cons.injEq] at hab'
          have ha0 : a0 ≠ [] := by
            intro h0
            subst h0
            simp at hlen
          have hnl0 : '\n' ∉ a0 := fun hm => hnl' (List.mem_cons_of_mem _ hm)
          by_contra hcon
          have hsome : (k b').isSome := Option.ne_none_iff_isSome.mp hcon
          have := dotPlusGreedy_isSome k a0 b' ha0 hnl0 hsome
          rw [← hab'.2, hg] at this
          exact absurd this (by simp)


theorem suffixPattern_sound (lit s w g : List Char)
    (h : suffixPattern lit true s = some (w, g)) :
    ∃ p t, s = p ++ (lit ++ t) ∧ p ≠ [] ∧ t ≠ [] ∧ '\n' ∉ p ∧ '\n' ∉ t ∧ w = s ∧ g = lit ++ t
      ∧ ∀ p' t', s = p' ++ (lit ++ t') → t' ≠ [] → '\n' ∉ p' → '\n' ∉ t' →
          p'.length ≤ p.length := by
  rw [suffixPattern, if_pos rfl] at h
  obtain ⟨p, b, hs, hp, hpnl, hk, hmax⟩ := dotPlusGreedy_sound _ s (w, g) h
  obtain ⟨t, hb, hlazy⟩ := literal_some _ _ _ _ hk
  obtain ⟨ht, htnl, hr⟩ := dotPlusLazy_to_end_some
    (fun s2 => (consumed s s2, consumed b s2)) t (w, g) hlazy
  simp only [consumed_nil, Prod.mk.injEq] at hr
  refine ⟨p, t, by rw [hs, hb], hp, ht, hpnl, htnl, hr.1, by rw [hr.2, hb], ?_⟩
  intro p' t' hs' ht' hpnl' htnl'
  by_contra hlen
  have hnone := hmax p' (lit ++ t') hs' (by omega) hpnl'
  rw [literal_append, dotPlusLazy_to_end
    (fun s2 => (consumed s s2, consumed (lit ++ t') s2)) t' ht' htnl'] at hnone
  exact absurd hnone (by simp)

theorem suffixPattern_complete (lit p t : List Char) (hp : p ≠ []) (hpnl : '\n' ∉ p)
    (ht : t ≠ []) (htnl : '\n' ∉ t) : (suffixPattern lit true (p ++ (lit ++ t))).isSome := by
  rw [suffixPattern, if_pos rfl]
  apply dotPlusGreedy_isSome _ p (lit ++ t) hp hpnl
  rw [literal_append, dotPlusLazy_to_end
    (fun s2 => (consumed (p ++ (lit ++ t)) s2, consumed (lit ++ t) s2)) t ht htnl]
  rfl


theorem FindStringSubmatch_sound (lit arn w id : String)
    (h : FindStringSubmatch lit arn = some (w, id)) :
    ∃ p t : String, arn = p ++ (lit ++ t) ∧ p ≠ "" ∧ t ≠ "" ∧ '\n' ∉ p.toList ∧ '\n' ∉ t.toList
      ∧ id = lit ++ t
      ∧ ∀ p' t' : String, arn = p' ++ (lit ++ t') → t' ≠ "" → '\n' ∉ p'.toList →
          '\n' ∉ t'.toList → p'.length ≤ p.length := by
  rw [FindStringSubmatch, searchFrom_suffixPattern] at h
  cases hm : suffixPattern lit.toList true arn.toList with
  | none => rw [hm] at h; exact absurd h (by simp)
  | some m =>
    obtain ⟨w0, g0⟩ := m
    rw [hm] at h
    simp only [Option.map_some', Option.some.injEq, Prod.mk.injEq] at h
    obtain ⟨p, t, hs, hp, ht, hpnl, htnl, -, hg, hmax⟩ := suffixPattern_sound _ _ _ _ hm
    refine ⟨String.mk p, String.mk t, ?_, ?_, ?_, hpnl, htnl, ?_, ?_⟩
    · apply String.ext
      simpa [String.toList] using hs
    · intro h0
      exact hp (by simpa using congrArg String.data h0)
    · intro h0
      exact ht (by simpa using congrArg String.data h0)
    · rw [← h.2, hg]
      apply String.ext
      simp [String.toList]
    · intro p' t' harn ht' hpnl' htnl'
      have hs' : arn.toList = p'.toList ++ (lit.toList ++ t'.toList) := by
        rw [harn]; simp [String.toList]
      have ht0 : t'.toList ≠ [] := fun h0 => ht' (String.ext h0)
      exact hmax p'.toList t'.toList hs' ht0 hpnl' htnl'

theorem FindStringSubmatch_complete (lit p t : String) (hp : p ≠ "") (hpnl : '\n' ∉ p.toList)
    (ht : t ≠ "") (htnl : '\n' ∉ t.toList) :
    (FindStringSubmatch lit (p ++ (lit ++ t))).isSome := by
  have hp' : p.toList ≠ [] := fun h => hp (String.ext h)
  have ht' : t.toList ≠ [] := fun h => ht (String.ext h)
  have h := suffixPattern_complete lit.toList p.toList t.toList hp' hpnl ht' htnl
  have h2 : (p ++ (lit ++ t)).toList = p.toList ++ (lit.toList ++ t.toList) := by
    simp [String.toList]
  rw [FindStringSubmatch, searchFrom_suffixPattern, h2]
  cases hm : suffixPattern lit.toList true (p.toList ++ (lit.toList ++ t.toList)) with
  | none => rw [hm] at h; exact absurd h (by simp)
  | some m => rfl

theorem ExtractAlbId_ok_iff (arn id : String) :
    ExtractAlbId arn = Except.ok id ↔ ∃ w, FindStringSubmatch "app/" arn = some (w, id) := by
  unfold ExtractAlbId
  cases hf : FindStringSubmatch "app/" arn with
  | none => simp
  | some m =>
    obtain ⟨w, g⟩ := m
    simp

/-- C18: `ExtractAlbId(arn)` succeeds exactly when `arn` contains no line
feed and is `p ++ "app/" ++ s` with `p` and `s` non-empty; the result is
then `"app/" ++ s` for the decomposition with the longest `p`, a proper
suffix of `arn` that starts with `app/` and has length at least 5. -/
theorem ExtractAlbId_characterisation (arn : String) :
    ((∃ id, ExtractAlbId arn = Except.ok id) ↔
      ('\n' ∉ arn.toList ∧ ∃ p s : String, p ≠ "" ∧ s ≠ "" ∧ arn = p ++ "app/" ++ s))
    ∧ ∀ id, ExtractAlbId arn = Except.ok id →
        ∃ p s : String, p ≠ "" ∧ s ≠ "" ∧ arn = p ++ "app/" ++ s ∧ id = "app/" ++ s
          ∧ (∀ p' s' : String, p' ≠ "" → s' ≠ "" → arn = p' ++ "app/" ++ s' →
              p'.length ≤ p.length)
          ∧ id.toList <:+ arn.toList ∧ id ≠ arn ∧ "app/".toList <+: id.toList
          ∧ 5 ≤ id.length := by
  have key : ∀ id, ExtractAlbId arn = Except.ok id →
      '\n' ∉ arn.toList ∧
      ∃ p s : String, p ≠ "" ∧ s ≠ "" ∧ arn = p ++ "app/" ++ s ∧ id = "app/" ++ s
          ∧ (∀ p' s' : String, p' ≠ "" → s' ≠ "" → arn = p' ++ "app/" ++ s' →
              p'.length ≤ p.length)
          ∧ id.toList <:+ arn.toList ∧ id ≠ arn ∧ "app/".toList <+: id.toList
          ∧ 5 ≤ id.length := by
    intro id hid
    obtain ⟨w, hw⟩ := (ExtractAlbId_ok_iff arn id).mp hid
    obtain ⟨p, t, harn, hp, ht, hpnl, htnl, hidt, hmax⟩ := FindStringSubmatch_sound _ _ _ _ hw
    have hnl : '\n' ∉ arn.toList := by
      rw [harn]
      simp only [String.toList, String.data_append, List.mem_append, not_or]
      exact ⟨hpnl, by decide, htnl⟩
    have hplen : 0 < p.length := by
      rcases Nat.eq_zero_or_pos p.length with h0 | h0
      · exact absurd (String.ext (List.length_eq_zero.mp h0)) hp
      · exact h0
    have htlen : 0 < t.length := by
      rcases Nat.eq_zero_or_pos t.length with h0 | h0
      · exact absurd (String.ext (List.length_eq_zero.mp h0)) ht
      · exact h0
    refine ⟨hnl, p, t, hp, ht, ?_, hidt, ?_, ?_, ?_, ?_, ?_⟩
    · rw [harn]; apply String.ext; simp
    · intro p' s' _ hs' harn'
      have harn2 : arn = p' ++ ("app/" ++ s') := by
        rw [harn']; apply String.ext; simp
      have hnl' : '\n' ∉ (p' ++ ("app/" ++ s')).toList := harn2 ▸ hnl
      simp only [String.toList, String.data_append, List.mem_append, not_or] at hnl'
      exact hmax p' s' harn2 hs' hnl'.1 hnl'.2.2
    · rw [hidt, harn]
      exact ⟨p.toList, by simp [String.toList]⟩
    · intro heq
      have := congrArg String.length heq
      rw [hidt, harn] at this
      simp only [String.length_append] at this
      omega
    · rw [hidt]
      exact ⟨t.toList, by simp [String.toList]⟩
    · rw [hidt, String.length_append]
      have : "app/".length = 4 := by decide
      omega
  refine ⟨⟨?_, ?_⟩, fun id hid => (key id hid).2⟩
  · rintro ⟨id, hid⟩
    obtain ⟨hnl, p, s, hp, hs, harn, -⟩ := key id hid
    exact ⟨hnl, p, s, hp, hs, harn⟩
  · rintro ⟨hnl, p, s, hp, hs, harn⟩
    have harn2 : arn = p ++ ("app/" ++ s) := by
      rw [harn]; apply String.ext; simp
    have hnl' : '\n' ∉ (p ++ ("app/" ++ s)).toList := harn2 ▸ hnl
    simp only [String.toList, String.data_append, List.mem_append, not_or] at hnl'
    have h := FindStringSubmatch_complete "app/" p s hp hnl'.1 hs hnl'.2.2
    rw [← harn2] at h
    cases hf : FindStringSubmatch "app/" arn with
    | none => rw [hf] at h; exact absurd h (by simp)
    | some m => exact ⟨m.2, by rw [ExtractAlbId, hf]⟩

/-- C18 (witness): the statement at the ARN of the test suite. -/
theorem ExtractAlbId_characterisation_witness :
    ∃ p s : String, p ≠ "" ∧ s ≠ ""
      ∧ "arn:aws:elasticloadbalancing:us-west-2:1111:loadbalancer/app/alb/12345"
          = p ++ "app/" ++ s
      ∧ "app/alb/12345" = "app/" ++ s
      ∧ (∀ p' s' : String, p' ≠ "" → s' ≠ "" →
          "arn:aws:elasticloadbalancing:us-west-2:1111:loadbalancer/app/alb/12345"
            = p' ++ "app/" ++ s' → p'.length ≤ p.length)
      ∧ "app/alb/12345".toList
          <:+ "arn:aws:elasticloadbalancing:us-west-2:1111:loadbalancer/app/alb/12345".toList
      ∧ "app/alb/12345"
          ≠ "arn:aws:elasticloadbalancing:us-west-2:1111:loadbalancer/app/alb/12345"
      ∧ "app/".toList <+: "app/alb/12345".toList
      ∧ 5 ≤ "app/alb/12345".length :=
  (ExtractAlbId_characterisation
    "arn:aws:elasticloadbalancing:us-west-2:1111:loadbalancer/app/alb/12345").2
    "app/alb/12345" rfl

/-! ## ExtractTargetGroupId (C11) -/

/-- C11 (amended): for every ARN `P ++ "targetgroup/" ++ name ++ "/" ++ id`
in which `P` is non-empty and contains no line feed, `name` and `id` contain
no `/` and no line feed, and `name` does not end in `targetgroup`,
`ExtractTargetGroupId` returns without error `"targetgroup/" ++ name ++ "/"
++ id`; and it returns an error for every string that does not contain
`targetgroup/`. -/
theorem ExtractTargetGroupId_spec :
    (∀ P name id : String, P ≠ "" → '\n' ∉ P.toList →
      '/' ∉ name.toList → '\n' ∉ name.toList → '/' ∉ id.toList → '\n' ∉ id.toList →
      ¬ "targetgroup".toList <:+ name.toList →
      ExtractTargetGroupId (P ++ "targetgroup/" ++ name ++ "/" ++ id)
        = Except.ok ("targetgroup/" ++ name ++ "/" ++ id))
    ∧ (∀ arn : String, ¬ "targetgroup/".toList <:+: arn.toList →
      ∃ err, ExtractTargetGroupId arn = Except.error err) := by
  constructor
  · intro P name id hP hPnl hname1 hname2 hid1 hid2 hsuf
    have harn : P ++ "targetgroup/" ++ name ++ "/" ++ id
        = P ++ ("targetgroup/" ++ (name ++ "/" ++ id)) := by
      apply String.ext
      simp only [String.data_append]
      simp
    have hres : "targetgroup/" ++ name ++ "/" ++ id = "targetgroup/" ++ (name ++ "/" ++ id) := by
      apply String.ext
      simp only [String.data_append]
      simp
    have hfind := FindStringSubmatch_last "targetgroup/" P (name ++ "/" ++ id) hP hPnl
      (by
        intro h
        have := congrArg String.length h
        simp at this
        exact absurd this.1.2 (by decide))
      (by
        simp only [String.toList, String.data_append, List.mem_append, not_or]
        exact ⟨⟨hname2, by decide⟩, hid2⟩)
      (by
        have h := no_later_literal '/' "targetgroup".toList name.toList id.toList (by decide)
          hname1 hid1 hsuf
        intro a b ha hab
        apply h a b ha
        rw [hab]
        simp [String.toList])
    rw [harn, hres, ExtractTargetGroupId, hfind]
  · intro arn hno
    unfold ExtractTargetGroupId
    cases hf : FindStringSubmatch "targetgroup/" arn with
    | none => exact ⟨_, rfl⟩
    | some m =>
      obtain ⟨w, g⟩ := m
      obtain ⟨p, t, harn, -⟩ := FindStringSubmatch_sound _ _ _ _ hf
      exfalso
      apply hno
      rw [harn]
      exact ⟨p.toList, t.toList, by simp [String.toList]⟩

/-- C11 (witness): the two cases of `TestExtractTargetGroupId`. -/
theorem ExtractTargetGroupId_spec_witness :
    ExtractTargetGroupId ("arn:aws:elasticloadbalancing:us-west-2:1111:" ++ "targetgroup/"
        ++ "tg" ++ "/" ++ "12345")
      = Except.ok ("targetgroup/" ++ "tg" ++ "/" ++ "12345")
    ∧ ∃ err, ExtractTargetGroupId "hoge" = Except.error err :=
  ⟨ExtractTargetGroupId_spec.1 "arn:aws:elasticloadbalancing:us-west-2:1111:" "tg" "12345"
      (by decide) (by decide) (by decide) (by decide) (by decide) (by decide) (by decide),
    ExtractTargetGroupId_spec.2 "hoge" (by decide)⟩

/-- C11 (counterexample): for `P = "arn:"`, `name = "mytargetgroup"`, `id =
"1"` the greedy `.+` runs up to the last `targetgroup/` and the result is
`targetgroup/1`; for `P = "a\nb"`, `name = "tg"`, `id = "1"` the pattern does
not match and the result is an error. -/
theorem ExtractTargetGroupId_not_always_whole_id :
    ExtractTargetGroupId ("arn:" ++ "targetgroup/" ++ "mytargetgroup" ++ "/" ++ "1")
        = Except.ok "targetgroup/1"
      ∧ ExtractTargetGroupId ("a\nb" ++ "targetgroup/" ++ "tg" ++ "/" ++ "1")
          = Except.error
              ("could not find target group id in '" ++ "a\nbtargetgroup/tg/1" ++ "'") :=
  ⟨rfl, rfl⟩

/-! ## The budget guard of the driver (C17) -/

theorem rollOutLoop_congr (impl : F64 → Int) (canary : Nat → CanaryBranch)
    (h : ∀ it, canary it = CanaryBranch.rollOut) :
    rollOutLoop impl canary = rollOutLoop impl (fun _ => CanaryBranch.rollOut) := by
  have : canary = fun _ => CanaryBranch.rollOut := funext h
  rw [this]

/-- C17 (the code at a failing input): with two running tasks and a canary
test that takes the `RollOut` branch in every iteration, the driver computes
`estimatedRollOutCount = 1`, replaces one task in each of two batches, and
then, with the current service empty and the terminal check ahead, the guard
`estimatedRollOutCount < rollOutCnt` fires at `rollOutCnt = 2`. -/
theorem StartGradualRollOut_two_tasks_exceeds_budget (impl : F64 → Int) (fuel : Nat)
    (availabilityThreshold responseTimeThreshold : ℚ) (health : Nat → ServiceHealth)
    (task1 task2 : String)
    (hpass : ∀ it, canaryBranch (health it) availabilityThreshold responseTimeThreshold
      = CanaryBranch.rollOut) :
    estimatedRollOutCount impl (fuel + 3) 2 = some 1
    ∧ StartGradualRollOut impl (fuel + 3) availabilityThreshold responseTimeThreshold health 2
        [task1, task2] 1
      = (LoopResult.budgetExceeded,
          { counters := { replacedCount := 2, rollOutCount := 2 },
            currentTasks := [], nextRunningCount := 3 }) := by
  have hest : estimatedRollOutCount impl (fuel + 3) 2 = some 1 := rfl
  refine ⟨hest, ?_⟩
  have h0 : toInt64 impl (mathPow2 (roundFloat64 0)) = 1 := rfl
  have h1 : toInt64 impl (mathPow2 (roundFloat64 1)) = 2 := rfl
  have w1 : wrapInt64 1 = 1 := by decide
  have w2 : wrapInt64 2 = 2 := by decide
  rw [StartGradualRollOut, hest]
  simp only []
  rw [rollOutLoop_congr impl _ hpass]
  simp [rollOutLoop, RollOut, replaceTasks, numToBeReplaced, h0, h1, w1, w2]

/-- C17 (witness): the statement for samples of availability 0 and response
time 2 against the thresholds 0.9 and 1. -/
theorem StartGradualRollOut_two_tasks_exceeds_budget_witness :
    (∀ it : Nat, canaryBranch ((fun _ => { availability := 0, responseTime := 2 }) it) (9 / 10) 1
      = CanaryBranch.rollOut)
    ∧ estimatedRollOutCount saturating (0 + 3) 2 = some 1
    ∧ StartGradualRollOut saturating (0 + 3) (9 / 10) 1
        (fun _ => { availability := 0, responseTime := 2 }) 2 ["task-1", "task-2"] 1
      = (LoopResult.budgetExceeded,
          { counters := { replacedCount := 2, rollOutCount := 2 },
            currentTasks := [], nextRunningCount := 3 }) :=
  have h : ∀ it : Nat,
      canaryBranch ((fun _ => { availability := 0, responseTime := 2 }) it) (9 / 10) 1
        = CanaryBranch.rollOut := fun _ => by
    have hc : ((0 : ℚ) ≤ 9 / 10 ∧ (1 : ℚ) ≤ 2) := by norm_num
    exact if_pos hc
  ⟨h, StartGradualRollOut_two_tasks_exceeds_budget saturating 0 (9 / 10) 1
    (fun _ => { availability := 0, responseTime := 2 }) "task-1" "task-2" h⟩

/-- The happy path of four tasks in the driver: with a canary test that takes
the `RollOut` branch in every iteration the loop replaces 1, 2 and 1 tasks
and completes with `rollOutCnt = 3 = estimatedRollOutCount`. -/
theorem StartGradualRollOut_four_tasks_completes (impl : F64 → Int)
    (availabilityThreshold responseTimeThreshold : ℚ) (health : Nat → ServiceHealth)
    (t1 t2 t3 t4 : String)
    (hpass : ∀ it, canaryBranch (health it) availabilityThreshold responseTimeThreshold
      = CanaryBranch.rollOut) :
    StartGradualRollOut impl 5 availabilityThreshold responseTimeThreshold health 4
        [t1, t2, t3, t4] 1
      = (LoopResult.completed,
          { counters := { replacedCount := 4, rollOutCount := 3 },
            currentTasks := [], nextRunningCount := 5 }) := by
  have hest : estimatedRollOutCount impl 5 4 = some 3 := rfl
  have h0 : toInt64 impl (mathPow2 (roundFloat64 0)) = 1 := rfl
  have h1 : toInt64 impl (mathPow2 (roundFloat64 1)) = 2 := rfl
  have h2 : toInt64 impl (mathPow2 (roundFloat64 2)) = 4 := rfl
  have w1 : wrapInt64 1 = 1 := by decide
  have w2 : wrapInt64 2 = 2 := by decide
  have w3 : wrapInt64 3 = 3 := by decide
  have w4 : wrapInt64 4 = 4 := by decide
  rw [StartGradualRollOut, hest]
  simp only []
  rw [rollOutLoop_congr impl _ hpass]
  simp [rollOutLoop, RollOut, replaceTasks, numToBeReplaced, h0, h1, h2, w1, w2, w3, w4]

/-! ## ReadFileAndApplyEnvars (C12, C13) -/

theorem consumed_append (a b : List Char) : consumed (a ++ b) b = a := by
  simp [consumed]

theorem placeholderPattern_of_ne (c : Char) (rest : List Char) (hc : c ≠ '$') :
    placeholderPattern (c :: rest) = none := by
  apply literal_of_not_prefix
  rintro ⟨t, ht⟩
  simp only [String.toList, List.cons_append, List.cons.injEq] at ht
  exact hc ht.1.symm

theorem findAllFrom_skip (pattern : List Char → Option (List Char × List Char))
    (w v : List Char) : findAllFrom pattern w.length (w ++ v) = findAllFrom pattern 0 v := by
  induction w with
  | nil => rfl
  | cons c w ih =>
    rw [List.length_cons, List.cons_append, findAllFrom]
    exact ih

theorem findAllFrom_text (u v : List Char) (hu : '$' ∉ u) :
    findAllFrom placeholderPattern 0 (u ++ v) = findAllFrom placeholderPattern 0 v := by
  induction u with
  | nil => rfl
  | cons c u ih =>
    have hc : c ≠ '$' := fun h => hu (h ▸ List.mem_cons_self _ _)
    rw [List.cons_append, findAllFrom, placeholderPattern_of_ne c _ hc]
    exact ih (fun h => hu (List.mem_cons_of_mem _ h))

theorem dotPlusLazy_first {α : Type} (k : List Char → Option α) (n r : List Char) (x : α)
    (hn : n ≠ []) (hnl : '\n' ∉ n) (hr : k r = some x)
    (hk : ∀ a b, a ≠ [] → b ≠ [] → a ++ b = n → k (b ++ r) = none) :
    dotPlusLazy k (n ++ r) = some x := by
  induction n with
  | nil => exact absurd rfl hn
  | cons c rest ih =>
    have hc : c ≠ '\n' := fun h => hnl (h ▸ List.mem_cons_self _ _)
    rw [List.cons_append, dotPlusLazy, if_neg hc]
    cases rest with
    | nil =>
      rw [List.nil_append, hr]
      rfl
    | cons c2 r2 =>
      rw [hk [c] (c2 :: r2) (List.cons_ne_nil _ _) (List.cons_ne_nil _ _) rfl]
      exact ih (List.cons_ne_nil _ _) (fun h => hnl (List.mem_cons_of_mem _ h))
        (fun a b ha hb hab => hk (c :: a) b (List.cons_ne_nil _ _) hb (by rw [← hab]; rfl))

theorem placeholderPattern_placeholder (name v : List Char) (hn : name ≠ [])
    (hclose : '\x7d' ∉ name) (hnl : '\n' ∉ name) :
    placeholderPattern ("$\x7b".toList ++ (name ++ "\x7d".toList) ++ v)
      = some ("$\x7b".toList ++ (name ++ "\x7d".toList), name) := by
  have hs : "$\x7b".toList ++ (name ++ "\x7d".toList) ++ v
      = "$\x7b".toList ++ (name ++ ("\x7d".toList ++ v)) := by simp
  have hlazy : ∀ s : List Char,
      dotPlusLazy (fun s2 => literal "\x7d".toList
          (fun s3 => some (consumed s s3, consumed (name ++ ("\x7d".toList ++ v)) s2)) s2)
        (name ++ ("\x7d".toList ++ v))
      = some (consumed s v, consumed (name ++ ("\x7d".toList ++ v)) ("\x7d".toList ++ v)) := by
    intro s
    apply dotPlusLazy_first _ name ("\x7d".toList ++ v) _ hn hnl
    · exact literal_append _ _ _
    · intro a b _ hb hab
      apply literal_of_not_prefix
      cases b with
      | nil => exact absurd rfl hb
      | cons c b' =>
        rintro ⟨t, ht⟩
        simp only [String.toList, List.cons_append, List.cons.injEq] at ht
        apply hclose
        rw [← hab, ← ht.1]
        simp
  rw [placeholderPattern, hs, literal_append, hlazy, consumed_append, ← hs, consumed_append]

theorem findAllFrom_placeholder (name v : List Char) (hn : name ≠ [])
    (hclose : '\x7d' ∉ name) (hnl : '\n' ∉ name) :
    findAllFrom placeholderPattern 0 ("$\x7b".toList ++ (name ++ "\x7d".toList) ++ v)
      = ("$\x7b".toList ++ (name ++ "\x7d".toList), name)
          :: findAllFrom placeholderPattern 0 v := by
  have hp := placeholderPattern_placeholder name v hn hclose hnl
  have hs : "$\x7b".toList ++ (name ++ "\x7d".toList) ++ v
      = '$' :: (('\x7b' :: (name ++ "\x7d".toList)) ++ v) := by simp [String.toList]
  rw [hs] at hp ⊢
  rw [findAllFrom, hp]
  simp only
  have hlen : ("$\x7b".toList ++ (name ++ "\x7d".toList)).length - 1
      = ('\x7b' :: (name ++ "\x7d".toList)).length := by simp [String.toList]
  rw [hlen, findAllFrom_skip]

theorem FindAllStringSubmatch_template (segs : List Segment)
    (hwf : ∀ seg ∈ segs, seg.wellFormed) :
    FindAllStringSubmatch (templateSource segs)
      = (placeholderNames segs).map
          (fun name => ((Segment.placeholder name).source, name.toList)) := by
  unfold FindAllStringSubmatch
  induction segs with
  | nil => rfl
  | cons seg rest ih =>
    have hrest := ih (fun s hs => hwf s (List.mem_cons_of_mem _ hs))
    have hseg := hwf seg (List.mem_cons_self _ _)
    cases seg with
    | text t =>
      rw [templateSource, Segment.source, findAllFrom_text _ _ hseg, hrest]
      rfl
    | placeholder name =>
      obtain ⟨h1, -, h3, h4⟩ := hseg
      have hne : name.toList ≠ [] := fun h => h1 (String.ext h)
      rw [templateSource, Segment.source, findAllFrom_placeholder _ _ hne h3 h4, hrest]
      rfl


theorem replaceFrom_text (o new u v : List Char) (hu : '$' ∉ u) :
    replaceFrom ('$' :: o) new 0 (u ++ v) = u ++ replaceFrom ('$' :: o) new 0 v := by
  induction u with
  | nil => rfl
  | cons c u ih =>
    have hc : c ≠ '$' := fun h => hu (h ▸ List.mem_cons_self _ _)
    have hp : ('$' :: o).isPrefixOf (c :: (u ++ v)) = false := by
      rw [Bool.eq_false_iff, Ne, List.isPrefixOf_iff_prefix]
      rintro ⟨t, ht⟩
      simp only [List.cons_append, List.cons.injEq] at ht
      exact hc ht.1.symm
    rw [List.cons_append, replaceFrom, hp, ih (fun h => hu (List.mem_cons_of_mem _ h))]
    rfl

theorem replaceFrom_skip (old new w v : List Char) :
    replaceFrom old new w.length (w ++ v) = replaceFrom old new 0 v := by
  induction w with
  | nil => rfl
  | cons c w ih =>
    rw [List.length_cons, List.cons_append, replaceFrom]
    exact ih

theorem replaceFrom_self (c : Char) (o new v : List Char) :
    replaceFrom (c :: o) new 0 ((c :: o) ++ v) = new ++ replaceFrom (c :: o) new 0 v := by
  have hp : (c :: o).isPrefixOf (c :: (o ++ v)) = true := by
    rw [List.isPrefixOf_iff_prefix]
    exact ⟨v, rfl⟩
  rw [List.cons_append, replaceFrom, hp, if_pos rfl]
  have hlen : (c :: o).length - 1 = o.length := by simp
  rw [hlen, replaceFrom_skip]

theorem source_eq (name : String) :
    (Segment.placeholder name).source = '$' :: ('\x7b' :: (name.toList ++ ['\x7d'])) := rfl

theorem replaceFrom_other (a n : String) (new v : List Char) (hne : n ≠ a)
    (ha : '\x7d' ∉ a.toList) (hn : '\x7d' ∉ n.toList) (hn2 : '$' ∉ n.toList) :
    replaceFrom (Segment.placeholder a).source new 0 ((Segment.placeholder n).source ++ v)
      = (Segment.placeholder n).source
          ++ replaceFrom (Segment.placeholder a).source new 0 v := by
  have hp : (Segment.placeholder a).source.isPrefixOf ((Segment.placeholder n).source ++ v)
      = false := by
    rw [Bool.eq_false_iff, Ne, List.isPrefixOf_iff_prefix]
    rintro ⟨t, ht⟩
    simp only [source_eq, List.cons_append, List.cons.injEq, true_and, List.append_assoc,
      List.singleton_append] at ht
    have := (split_first_unique ha hn ht).1
    exact hne (String.ext this.symm)
  have hrest : '$' ∉ '\x7b' :: (n.toList ++ ['\x7d']) := by
    simp only [List.mem_cons, List.mem_append, List.mem_singleton, not_or]
    exact ⟨by decide, hn2, by decide, List.not_mem_nil _⟩
  have h1 : (Segment.placeholder n).source ++ v
      = '$' :: (('\x7b' :: (n.toList ++ ['\x7d'])) ++ v) := by
    rw [source_eq]; rfl
  rw [h1] at hp ⊢
  rw [replaceFrom, hp]
  simp only [Bool.false_eq_true, if_false]
  rw [source_eq a, replaceFrom_text _ _ _ _ hrest, source_eq n]
  rfl


theorem envValue_no_dollar (lookupEnv : String → Option String)
    (henv : ∀ name value, lookupEnv name = some value → '$' ∉ value.toList) (name : String) :
    '$' ∉ envValue lookupEnv name := by
  unfold envValue
  cases h : lookupEnv name with
  | none => exact List.not_mem_nil _
  | some value => exact henv name value h

theorem stringsReplace_placeholder (s new : List Char) (a : String) :
    stringsReplace s (Segment.placeholder a).source new
      = replaceFrom (Segment.placeholder a).source new 0 s := by
  rw [stringsReplace, if_neg]
  rw [source_eq]
  exact List.cons_ne_nil _ _

theorem replaceFrom_partialSubstitute (lookupEnv : String → Option String)
    (henv : ∀ name value, lookupEnv name = some value → '$' ∉ value.toList)
    (a : String) (ha : (Segment.placeholder a).wellFormed) (done : List String)
    (segs : List Segment) (hwf : ∀ seg ∈ segs, seg.wellFormed) :
    replaceFrom (Segment.placeholder a).source (envValue lookupEnv a) 0
        (partialSubstitute lookupEnv done segs)
      = partialSubstitute lookupEnv (a :: done) segs := by
  induction segs with
  | nil => rfl
  | cons seg rest ih =>
    have hrest := ih (fun s hs => hwf s (List.mem_cons_of_mem _ hs))
    have hseg := hwf seg (List.mem_cons_self _ _)
    cases seg with
    | text t =>
      rw [partialSubstitute, partialSubstitute, source_eq, replaceFrom_text _ _ _ _ hseg,
        ← source_eq, hrest]
    | placeholder n =>
      obtain ⟨-, hn2, hn3, -⟩ := hseg
      rw [partialSubstitute, partialSubstitute]
      by_cases hdone : n ∈ done
      · rw [if_pos hdone, if_pos (List.mem_cons_of_mem _ hdone), source_eq,
          replaceFrom_text _ _ _ _ (envValue_no_dollar lookupEnv henv n), ← source_eq, hrest]
      · rw [if_neg hdone]
        by_cases hna : n = a
        · subst hna
          rw [if_pos (List.mem_cons_self _ _)]
          have := replaceFrom_self '$' ('\x7b' :: (n.toList ++ ['\x7d'])) (envValue lookupEnv n)
            (partialSubstitute lookupEnv done rest)
          rw [← source_eq] at this
          rw [this, hrest]
        · have hnot : n ∉ a :: done := by
            simp only [List.mem_cons, not_or]
            exact ⟨hna, hdone⟩
          rw [if_neg hnot, replaceFrom_other a n _ _ hna ha.2.2.1 hn3 hn2, hrest]

theorem foldl_partialSubstitute (lookupEnv : String → Option String)
    (henv : ∀ name value, lookupEnv name = some value → '$' ∉ value.toList)
    (segs : List Segment) (hwf : ∀ seg ∈ segs, seg.wellFormed) (names : List String)
    (hnames : ∀ name ∈ names, (Segment.placeholder name).wellFormed) (done : List String) :
    (names.map (fun name => ((Segment.placeholder name).source, name.toList))).foldl
        (fun str m =>
          match lookupEnv (String.mk m.2) with
          | some envar => stringsReplace str m.1 envar.toList
          | none => stringsReplace str m.1 [])
        (partialSubstitute lookupEnv done segs)
      = partialSubstitute lookupEnv (names.reverse ++ done) segs := by
  induction names generalizing done with
  | nil => rfl
  | cons a names ih =>
    have hstep : (match lookupEnv (String.mk a.toList) with
          | some envar => stringsReplace (partialSubstitute lookupEnv done segs)
              (Segment.placeholder a).source envar.toList
          | none => stringsReplace (partialSubstitute lookupEnv done segs)
              (Segment.placeholder a).source [])
        = partialSubstitute lookupEnv (a :: done) segs := by
      have hval : (match lookupEnv (String.mk a.toList) with
          | some envar => stringsReplace (partialSubstitute lookupEnv done segs)
              (Segment.placeholder a).source envar.toList
          | none => stringsReplace (partialSubstitute lookupEnv done segs)
              (Segment.placeholder a).source [])
          = stringsReplace (partialSubstitute lookupEnv done segs)
              (Segment.placeholder a).source (envValue lookupEnv a) := by
        unfold envValue
        show (match lookupEnv a with
          | some envar => _
          | none => _) = _
        cases lookupEnv a <;> rfl
      rw [hval, stringsReplace_placeholder]
      exact replaceFrom_partialSubstitute lookupEnv henv a
        (hnames a (List.mem_cons_self _ _)) done segs hwf
    rw [List.map_cons, List.foldl_cons, hstep,
      ih (fun n hn => hnames n (List.mem_cons_of_mem _ hn)) (a :: done)]
    simp

theorem partialSubstitute_nil (lookupEnv : String → Option String) (segs : List Segment) :
    partialSubstitute lookupEnv [] segs = templateSource segs := by
  induction segs with
  | nil => rfl
  | cons seg rest ih =>
    cases seg with
    | text t => rw [partialSubstitute, ih]; rfl
    | placeholder n =>
      rw [partialSubstitute, ih, if_neg (List.not_mem_nil _)]
      rfl

theorem partialSubstitute_all (lookupEnv : String → Option String) (done : List String)
    (segs : List Segment) (hall : ∀ name ∈ placeholderNames segs, name ∈ done) :
    partialSubstitute lookupEnv done segs = substituteAll lookupEnv segs := by
  induction segs with
  | nil => rfl
  | cons seg rest ih =>
    cases seg with
    | text t => rw [partialSubstitute, substituteAll, ih hall]
    | placeholder n =>
      rw [partialSubstitute, substituteAll,
        ih (fun m hm => hall m (List.mem_cons_of_mem _ hm)),
        if_pos (hall n (List.mem_cons_self _ _))]

theorem placeholderNames_wellFormed (segs : List Segment)
    (hwf : ∀ seg ∈ segs, seg.wellFormed) :
    ∀ name ∈ placeholderNames segs, (Segment.placeholder name).wellFormed := by
  induction segs with
  | nil => intro name h; exact absurd h (List.not_mem_nil _)
  | cons seg rest ih =>
    have hrest := ih (fun s hs => hwf s (List.mem_cons_of_mem _ hs))
    cases seg with
    | text t => exact hrest
    | placeholder n =>
      intro name h
      rcases List.mem_cons.mp h with h | h
      · rw [h]; exact hwf _ (List.mem_cons_self _ _)
      · exact hrest name h

theorem readFile_wellFormed (lookupEnv : String → Option String)
    (henv : ∀ name value, lookupEnv name = some value → '$' ∉ value.toList)
    (segs : List Segment) (hwf : ∀ seg ∈ segs, seg.wellFormed) :
    ReadFileAndApplyEnvars (Except.ok (String.mk (templateSource segs))) lookupEnv
      = Except.ok (String.mk (substituteAll lookupEnv segs)) := by
  have h := foldl_partialSubstitute lookupEnv henv segs hwf (placeholderNames segs)
    (placeholderNames_wellFormed segs hwf) []
  rw [partialSubstitute_nil, ← FindAllStringSubmatch_template segs hwf,
    partialSubstitute_all lookupEnv _ segs (fun name hname => by simp [hname])] at h
  exact congrArg (fun l => Except.ok (String.mk l)) h


theorem plain_wellFormed (seg : Segment) (h : seg.plain) : seg.wellFormed := by
  cases seg with
  | text t => exact h.1
  | placeholder name =>
    obtain ⟨h1, h2⟩ := h
    refine ⟨h1, ?_, ?_, ?_⟩
    · intro hm
      rcases h2 _ hm with h3 | h3
      · exact absurd h3 (by decide)
      · exact absurd h3 (by decide)
    · intro hm
      rcases h2 _ hm with h3 | h3
      · exact absurd h3 (by decide)
      · exact absurd h3 (by decide)
    · intro hm
      rcases h2 _ hm with h3 | h3
      · exact absurd h3 (by decide)
      · exact absurd h3 (by decide)

/-- C12: for every readable file whose content uses `$`, `\x7b` and `\x7d` only
in placeholders with a non-empty name of letters, digits and underscores,
and every environment whose values contain no `$`,
`ReadFileAndApplyEnvars` returns without error the content in which every
placeholder is replaced by the value of its name, or by the empty string
when the name is not defined, all other text unchanged. -/
theorem ReadFileAndApplyEnvars_plain_template (lookupEnv : String → Option String)
    (segs : List Segment) (hplain : ∀ seg ∈ segs, seg.plain)
    (henv : ∀ name value, lookupEnv name = some value → '$' ∉ value.toList) :
    ReadFileAndApplyEnvars (Except.ok (String.mk (templateSource segs))) lookupEnv
      = Except.ok (String.mk (substituteAll lookupEnv segs)) :=
  readFile_wellFormed lookupEnv henv segs (fun seg hseg => plain_wellFormed seg (hplain seg hseg))

/-- C12 (witness): the template and the environment of
`TestReadFileAndApplyEnvars`. -/
theorem ReadFileAndApplyEnvars_plain_template_witness :
    ReadFileAndApplyEnvars (Except.ok "HOGE=$\x7bHOGE\x7d\nFUGA=$\x7bFUGA\x7d\n$\x7bFUGA\x7d=$\x7bHOGE\x7d")
        (fun name => if name = "HOGE" then some "hogehoge"
          else if name = "FUGA" then some "fugafuga" else none)
      = Except.ok "HOGE=hogehoge\nFUGA=fugafuga\nfugafuga=hogehoge" :=
  ReadFileAndApplyEnvars_plain_template
    (fun name => if name = "HOGE" then some "hogehoge"
      else if name = "FUGA" then some "fugafuga" else none)
    [Segment.text "HOGE=", Segment.placeholder "HOGE", Segment.text "\nFUGA=",
      Segment.placeholder "FUGA", Segment.text "\n", Segment.placeholder "FUGA",
      Segment.text "=", Segment.placeholder "HOGE"]
    (by
      intro seg hseg
      simp only [List.mem_cons, List.mem_singleton, List.not_mem_nil, or_false] at hseg
      rcases hseg with h | h | h | h | h | h | h | h <;> subst h <;>
        simp [Segment.plain])
    (by
      intro name value h
      beta_reduce at h
      split_ifs at h with h1 h2
      · cases h; decide
      · cases h; decide)

/-- C13 (amended): for every file content in which every `$` begins a
placeholder (texts without `$`, names non-empty and without `$`, `\x7d` and
line feed) and every environment whose values contain no `$`, the output of
`ReadFileAndApplyEnvars` is the result of one simultaneous pass over the
original content that replaces each placeholder by the value of its name, or
by the empty string when the name is not defined. -/
theorem ReadFileAndApplyEnvars_simultaneous (lookupEnv : String → Option String)
    (segs : List Segment) (hwf : ∀ seg ∈ segs, seg.wellFormed)
    (henv : ∀ name value, lookupEnv name = some value → '$' ∉ value.toList) :
    ReadFileAndApplyEnvars (Except.ok (String.mk (templateSource segs))) lookupEnv
      = Except.ok (String.mk (substituteAll lookupEnv segs)) :=
  readFile_wellFormed lookupEnv henv segs hwf

/-- C13 (witness): the amended statement at a template whose text contains
braces. -/
theorem ReadFileAndApplyEnvars_simultaneous_witness :
    ReadFileAndApplyEnvars (Except.ok "\x7b$\x7bA\x7d\x7d and $\x7bB\x7d")
        (fun name => if name = "A" then some "\x7bx\x7d" else none)
      = Except.ok "\x7b\x7bx\x7d\x7d and " :=
  ReadFileAndApplyEnvars_simultaneous
    (fun name => if name = "A" then some "\x7bx\x7d" else none)
    [Segment.text "\x7b", Segment.placeholder "A", Segment.text "\x7d and ",
      Segment.placeholder "B"]
    (by
      intro seg hseg
      simp only [List.mem_cons, List.mem_singleton, List.not_mem_nil, or_false] at hseg
      rcases hseg with h | h | h | h <;> subst h <;> simp [Segment.wellFormed])
    (by
      intro name value h
      beta_reduce at h
      split_ifs at h with h1
      cases h; decide)

/-- C13 (counterexample): with `A` set to the text of the placeholder of `B`
and `B` set to `x`, the content made of the placeholders of `A` and `B`
separated by a blank yields `x x`: the text inserted for `A` is substituted
again, where one simultaneous pass leaves it in place.  And with `A`
undefined, the content `$` followed by the placeholder of `A`, the text
`\x7bB\x7d`, a blank and the placeholder of `B` contains the two placeholders of `A`
and `B` and yields `x x` as well, where one pass leaves the first part as
it is. -/
theorem ReadFileAndApplyEnvars_substitutes_again :
    (ReadFileAndApplyEnvars
        (Except.ok (String.mk (templateSource
          [Segment.placeholder "A", Segment.text " ", Segment.placeholder "B"])))
        (fun name => if name = "A" then some "$\x7bB\x7d"
          else if name = "B" then some "x" else none)
      = Except.ok "x x"
    ∧ String.mk (substituteAll
        (fun name => if name = "A" then some "$\x7bB\x7d"
          else if name = "B" then some "x" else none)
        [Segment.placeholder "A", Segment.text " ", Segment.placeholder "B"])
      = "$\x7bB\x7d x")
    ∧ (FindAllStringSubmatch "$$\x7bA\x7d\x7bB\x7d $\x7bB\x7d".toList
        = ["$\x7bA\x7d".toList, "$\x7bB\x7d".toList].zip ["A".toList, "B".toList]
    ∧ templateSource [Segment.text "$", Segment.placeholder "A", Segment.text "\x7bB\x7d ",
        Segment.placeholder "B"] = "$$\x7bA\x7d\x7bB\x7d $\x7bB\x7d".toList
    ∧ ReadFileAndApplyEnvars (Except.ok "$$\x7bA\x7d\x7bB\x7d $\x7bB\x7d")
        (fun name => if name = "B" then some "x" else none)
      = Except.ok "x x"
    ∧ String.mk (substituteAll (fun name => if name = "B" then some "x" else none)
        [Segment.text "$", Segment.placeholder "A", Segment.text "\x7bB\x7d ",
          Segment.placeholder "B"])
      = "$\x7bB\x7d x") := by
  refine ⟨⟨rfl, ?_⟩, ?_, ?_, rfl, ?_⟩ <;> decide

end Cage
